import Mathlib

/-!
Verification of the work-log plugin's text-splicing and auto-linking engines.

The TypeScript sources are shallowly embedded: JS strings become `List Char`
(`Str`), the specific regular expressions used by the code become explicit
token-list patterns or bespoke matchers with JS `g`-flag (left-to-right,
non-overlapping, skip-past-match) scanning semantics, and the stateful
vault/plugin layer becomes explicit state passing.

Modelling conventions (noted once here):
* characters are compared by code point, matching JS UTF-16 comparison on the
  basic plane; all concrete inputs used below are ASCII;
* the JS whitespace class `\s`, `trimEnd`, and the multiline anchors `^`/`$`
  are modelled over the ASCII whitespace characters (space, tab, `\n`, `\r`)
  with `\n` as the line terminator, which is exact for all ASCII-`\n` content.
-/

namespace WorkLog

/-- Characters of a JS string, in order. -/
abbrev Str := List Char

/-- Coerce a Lean string literal to the character-list representation. -/
def str (s : String) : Str := s.data

/-- JS `<` on strings: lexicographic comparison by code units, with the
shorter string smaller when one is a prefix of the other. -/
def lexLt : Str → Str → Bool
  | [], [] => false
  | [], _ :: _ => true
  | _ :: _, [] => false
  | a :: as, b :: bs => if a < b then true else if b < a then false else lexLt as bs

/-- Non-strict counterpart of `lexLt`. -/
def lexLe (a b : Str) : Bool := !lexLt b a

theorem lexLt_irrefl (a : Str) : lexLt a a = false := by
  induction a with
  | nil => rfl
  | cons c cs ih => simp [lexLt, ih]

theorem lexLt_asymm {a b : Str} (h : lexLt a b = true) : lexLt b a = false := by
  induction a generalizing b with
  | nil =>
    cases b with
    | nil => simp [lexLt]
    | cons d ds => simp [lexLt]
  | cons c cs ih =>
    cases b with
    | nil => simp [lexLt] at h
    | cons d ds =>
      by_cases hcd : c < d
      · have hdc : ¬ d < c := fun h2 => absurd hcd (lt_asymm h2)
        simp [lexLt, hcd, hdc]
      · by_cases hdc : d < c
        · simp [lexLt, hcd, hdc] at h
        · have := ih (b := ds)
          simp only [lexLt, if_neg hcd, if_neg hdc] at h ⊢
          exact this h

theorem lexLt_total {a b : Str} (h : lexLt a b = false) : lexLt b a = true ∨ a = b := by
  induction a generalizing b with
  | nil =>
    cases b with
    | nil => right; rfl
    | cons d ds => simp [lexLt] at h
  | cons c cs ih =>
    cases b with
    | nil => left; rfl
    | cons d ds =>
      by_cases hcd : c < d
      · simp [lexLt, hcd] at h
      · by_cases hdc : d < c
        · left; simp [lexLt, hdc]
        · have hcd' : c = d := le_antisymm (not_lt.mp hdc) (not_lt.mp hcd)
          subst hcd'
          simp [lexLt, lt_irrefl] at h ⊢
          rcases ih h with h1 | h1
          · left; exact h1
          · right; rw [h1]

theorem lexLt_trans {a b c : Str} (h1 : lexLt a b = true) (h2 : lexLt b c = true) :
    lexLt a c = true := by
  induction a generalizing b c with
  | nil =>
    cases c with
    | nil => cases b with
      | nil => simp [lexLt] at h1
      | cons d ds => simp [lexLt] at h2
    | cons e es => simp [lexLt]
  | cons x xs ih =>
    cases b with
    | nil => simp [lexLt] at h1
    | cons y ys =>
      cases c with
      | nil => simp [lexLt] at h2
      | cons z zs =>
        by_cases hxy : x < y
        · by_cases hyz : y < z
          · have hxz : x < z := lt_trans hxy hyz
            simp [lexLt, hxz]
          · by_cases hzy : z < y
            · simp [lexLt, hyz, hzy] at h2
            · have : y = z := le_antisymm (not_lt.mp hzy) (not_lt.mp hyz)
              subst this
              simp [lexLt, hxy]
        · by_cases hyx : y < x
          · simp [lexLt, hxy, hyx] at h1
          · have : x = y := le_antisymm (not_lt.mp hyx) (not_lt.mp hxy)
            subst this
            simp [lexLt, lt_irrefl] at h1
            by_cases hyz : x < z
            · simp [lexLt, hyz]
            · by_cases hzy : z < x
              · simp [lexLt, hyz, hzy] at h2
              · have : x = z := le_antisymm (not_lt.mp hzy) (not_lt.mp hyz)
                subst this
                simp [lexLt, lt_irrefl] at h2 ⊢
                exact ih h1 h2

theorem lexLe_of_lt {a b : Str} (h : lexLt a b = true) : lexLe a b = true := by
  unfold lexLe
  rw [lexLt_asymm h]
  rfl

theorem lexLe_refl (a : Str) : lexLe a a = true := by
  unfold lexLe
  rw [lexLt_irrefl]
  rfl

theorem lexLe_trans {a b c : Str} (h1 : lexLe a b = true) (h2 : lexLe b c = true) :
    lexLe a c = true := by
  unfold lexLe at *
  simp only [Bool.not_eq_true'] at h1 h2 ⊢
  by_contra hac
  have hca : lexLt c a = true := by
    cases h : lexLt c a
    · exact absurd h hac
    · rfl
  rcases lexLt_total h2 with h3 | h3
  · exact absurd (lexLt_trans h3 hca) (by simp [h1])
  · rw [h3] at hca
    exact absurd hca (by simp [h1])

/-- `b` is not strictly below `a` whenever the code's comparison
`lexLt a b` came back `false`. -/
theorem lexLe_of_not_lt {a b : Str} (h : lexLt a b = false) : lexLe b a = true := by
  unfold lexLe
  rw [h]
  rfl

/-- ASCII model of the JS whitespace class used by `trimEnd` / `\s` / `.trim()`. -/
def isWsJs (c : Char) : Bool := c == ' ' || c == '\t' || c == '\n' || c == '\r'

/-- JS `String.prototype.trimEnd`. -/
def trimEnd (s : Str) : Str := (s.reverse.dropWhile isWsJs).reverse

/-- JS `String.prototype.trim`. -/
def jsTrim (s : Str) : Str := ((s.dropWhile isWsJs).reverse.dropWhile isWsJs).reverse

theorem trimEnd_append_ws (s : Str) :
    s = trimEnd s ++ (s.reverse.takeWhile isWsJs).reverse := by
  unfold trimEnd
  rw [← List.reverse_append, List.takeWhile_append_dropWhile]
  rw [List.reverse_reverse]

theorem trimEnd_ws_all (s : Str) :
    ∀ c ∈ (s.reverse.takeWhile isWsJs).reverse, isWsJs c = true := by
  intro c hc
  rw [List.mem_reverse] at hc
  exact List.mem_takeWhile_imp hc

/-- One position of a compiled pattern. -/
inductive PTok where
  | lit : Char → PTok
  | digit : PTok
  | nonHash : PTok
deriving DecidableEq, Repr

/-- Whether a pattern token accepts a character. -/
def tokMatch : PTok → Char → Bool
  | .lit c, d => c == d
  | .digit, d => d.isDigit
  | .nonHash, d => d != '#'

/-- The pattern matches at the start of `s` (the rest of `s` is unconstrained). -/
def patAt : List PTok → Str → Bool
  | [], _ => true
  | _ :: _, [] => false
  | t :: ts, c :: cs => tokMatch t c && patAt ts cs

/-- Literal pattern for a fixed character sequence. -/
def lits (w : Str) : List PTok := w.map .lit

/-- Literal prefix test (JS `startsWith` / literal regex at a position). -/
def pfx (w s : Str) : Bool := patAt (lits w) s

/-- The pattern occurs at offset `i` of `s`. -/
def occursAt (p : List PTok) (s : Str) (i : Nat) : Prop := patAt p (s.drop i) = true

instance (p : List PTok) (s : Str) (i : Nat) : Decidable (occursAt p s i) := by
  unfold occursAt; infer_instance

theorem patAt_length_le {p : List PTok} {s : Str} (h : patAt p s = true) :
    p.length ≤ s.length := by
  induction p generalizing s with
  | nil => simp
  | cons t ts ih =>
    cases s with
    | nil => simp [patAt] at h
    | cons c cs =>
      simp only [patAt, Bool.and_eq_true] at h
      simpa using ih h.2

theorem patAt_append_right {p : List PTok} {s t : Str} (h : patAt p s = true) :
    patAt p (s ++ t) = true := by
  induction p generalizing s with
  | nil => simp [patAt]
  | cons tok toks ih =>
    cases s with
    | nil => simp [patAt] at h
    | cons c cs =>
      simp only [patAt, Bool.and_eq_true] at h
      simp only [List.cons_append, patAt, Bool.and_eq_true]
      exact ⟨h.1, ih h.2⟩

theorem patAt_of_append {p : List PTok} {s t : Str} (h : patAt p (s ++ t) = true)
    (hl : p.length ≤ s.length) : patAt p s = true := by
  induction p generalizing s with
  | nil => simp [patAt]
  | cons tok toks ih =>
    cases s with
    | nil => simp at hl
    | cons c cs =>
      simp only [List.cons_append, patAt, Bool.and_eq_true] at h
      simp only [patAt, Bool.and_eq_true]
      exact ⟨h.1, ih h.2 (by simpa using hl)⟩

/-- Splitting a match that extends past a piece: the tail of the pattern
matches the continuation. -/
theorem patAt_drop_of_append {p : List PTok} {s t : Str}
    (h : patAt p (s ++ t) = true) : patAt (p.drop s.length) t = true := by
  induction s generalizing p with
  | nil => simpa using h
  | cons c cs ih =>
    cases p with
    | nil => simp [patAt]
    | cons tok toks =>
      simp only [List.cons_append, patAt, Bool.and_eq_true] at h
      simpa using ih h.2

theorem pfx_iff_eq_take {w s : Str} : pfx w s = true ↔ s.take w.length = w := by
  unfold pfx lits
  induction w generalizing s with
  | nil => simp [patAt]
  | cons c cs ih =>
    cases s with
    | nil => simp [patAt]
    | cons d ds =>
      simp only [List.map, patAt, tokMatch, Bool.and_eq_true, beq_iff_eq,
        List.length_cons, List.take_succ_cons, List.cons.injEq]
      constructor
      · rintro ⟨rfl, h2⟩
        exact ⟨rfl, (ih).mp h2⟩
      · rintro ⟨rfl, h2⟩
        exact ⟨rfl, (ih).mpr h2⟩

theorem pfx_length_le {w s : Str} (h : pfx w s = true) : w.length ≤ s.length := by
  have := patAt_length_le (p := lits w) (s := s) h
  simpa [lits] using this

theorem pfx_refl (w : Str) : pfx w w = true := by
  rw [pfx_iff_eq_take]
  simp

theorem pfx_append (w t : Str) : pfx w (w ++ t) = true := by
  rw [pfx_iff_eq_take]
  simp

/-- Position `i + k` of the haystack seen through a match at `i`:
token `k` of the pattern accepts the character there. -/
theorem patAt_getD {p : List PTok} {s : Str} (h : patAt p s = true)
    {k : Nat} (hk : k < p.length) :
    tokMatch (p.getD k (.lit '#')) (s.getD k ' ') = true := by
  induction p generalizing s k with
  | nil => simp at hk
  | cons t ts ih =>
    cases s with
    | nil => simp [patAt] at h
    | cons c cs =>
      simp only [patAt, Bool.and_eq_true] at h
      cases k with
      | zero => simpa using h.1
      | succ k' =>
        simp only [List.getD_cons_succ]
        exact ih h.2 (by simpa using hk)

theorem getD_drop (s : Str) (i k : Nat) (d : Char) :
    (s.drop i).getD k d = s.getD (i + k) d := by
  induction s generalizing i with
  | nil => simp
  | cons c cs ih =>
    cases i with
    | zero => simp
    | succ i' =>
      simp only [List.drop_succ_cons, Nat.succ_add, List.getD_cons_succ]
      exact ih i'

/-- All pattern occurrences in a string, in order (no skipping). -/
def occList (p : List PTok) : Str → List Nat
  | [] => []
  | c :: cs =>
    if patAt p (c :: cs) then 0 :: (occList p cs).map (· + 1)
    else (occList p cs).map (· + 1)

/-- JS `g`-flag scanning: occurrences found left to right, resuming just past
each match (`lastIndex` semantics); `k` counts positions still to skip. -/
def scanR (p : List PTok) : Str → Nat → List Nat
  | [], _ => []
  | c :: cs, k + 1 =>
    have _ := c
    (scanR p cs k).map (· + 1)
  | c :: cs, 0 =>
    if patAt p (c :: cs) then 0 :: (scanR p cs (p.length - 1)).map (· + 1)
    else (scanR p cs 0).map (· + 1)

/-- Occurrence list produced by a fresh `g`-flag scan of `s`. -/
def scanPat (p : List PTok) (s : Str) : List Nat := scanR p s 0

theorem mem_occList {p : List PTok} (hp : p ≠ []) {s : Str} {i : Nat} :
    i ∈ occList p s ↔ occursAt p s i := by
  induction s generalizing i with
  | nil =>
    cases p with
    | nil => exact absurd rfl hp
    | cons t ts => simp [occList, occursAt, patAt]
  | cons c cs ih =>
    cases i with
    | zero =>
      by_cases h : patAt p (c :: cs) = true
      · simp [occList, h, occursAt]
      · simp only [occList, if_neg h, occursAt, List.drop_zero]
        constructor
        · intro hmem
          rcases List.mem_map.mp hmem with ⟨a, _, ha⟩
          omega
        · intro hh
          exact absurd hh h
    | succ i' =>
      have key : (i' + 1) ∈ occList p (c :: cs) ↔ i' ∈ occList p cs := by
        by_cases h : patAt p (c :: cs) = true <;>
          simp [occList, h]
      rw [key, ih]
      simp [occursAt]

theorem occList_sorted (p : List PTok) (s : Str) :
    (occList p s).Chain' (· < ·) := by
  induction s with
  | nil => simp [occList]
  | cons c cs ih =>
    have hmap : ((occList p cs).map (· + 1)).Chain' (· < ·) :=
      List.chain'_map_of_chain' _ (fun h => by omega) ih
    by_cases h : patAt p (c :: cs) = true
    · simp only [occList, if_pos h]
      refine List.chain'_cons'.mpr ⟨?_, hmap⟩
      intro y hy
      rcases List.mem_map.mp (List.mem_of_mem_head? hy) with ⟨j, _, rfl⟩
      omega
    · simpa [occList, if_neg h] using hmap

theorem occList_bound {p : List PTok} {s : Str} {i : Nat} (h : i ∈ occList p s) :
    i + p.length ≤ s.length := by
  induction s generalizing i with
  | nil => simp [occList] at h
  | cons c cs ih =>
    by_cases hm : patAt p (c :: cs) = true
    · rw [occList, if_pos hm] at h
      rcases List.mem_cons.mp h with rfl | h2
      · simpa using patAt_length_le hm
      · rcases List.mem_map.mp h2 with ⟨j, hj, rfl⟩
        have := ih hj
        simp only [List.length_cons]
        omega
    · rw [occList, if_neg hm] at h
      rcases List.mem_map.mp h with ⟨j, hj, rfl⟩
      have := ih hj
      simp only [List.length_cons]
      omega

/-- No two occurrences of `p` can overlap, whatever the haystack. -/
def SelfOvFree (p : List PTok) : Prop :=
  ∀ (s : Str) (i j : Nat), occursAt p s i → occursAt p s j → i < j → i + p.length ≤ j

/-- When occurrences of `p` cannot overlap each other, a `g`-flag scan
(which skips past every match) visits exactly the occurrence list. -/
theorem scanR_eq_occList {p : List PTok} {s : Str} {k : Nat}
    (hov : ∀ i j, occursAt p s i → occursAt p s j → i < j → i + p.length ≤ j)
    (hk : ∀ j, j < k → ¬ occursAt p s j) :
    scanR p s k = occList p s := by
  induction s generalizing k with
  | nil => simp [scanR, occList]
  | cons c cs ih =>
    have hov' : ∀ i j, occursAt p cs i → occursAt p cs j → i < j → i + p.length ≤ j := by
      intro i j h1 h2 hij
      have e1 : occursAt p (c :: cs) (i + 1) := by simpa [occursAt] using h1
      have e2 : occursAt p (c :: cs) (j + 1) := by simpa [occursAt] using h2
      have := hov (i + 1) (j + 1) e1 e2 (by omega)
      omega
    cases k with
    | zero =>
      by_cases h : patAt p (c :: cs) = true
      · rw [scanR, occList, if_pos h, if_pos h]
        congr 1
        congr 1
        apply ih hov'
        intro j hj hocc
        have h0 : occursAt p (c :: cs) 0 := by simpa [occursAt] using h
        have hj1 : occursAt p (c :: cs) (j + 1) := by simpa [occursAt] using hocc
        have := hov 0 (j + 1) h0 hj1 (by omega)
        omega
      · rw [scanR, occList, if_neg h, if_neg h]
        congr 1
        exact ih hov' (fun j hj => by omega)
    | succ k' =>
      have hocc0 : ¬ occursAt p (c :: cs) 0 := hk 0 (by omega)
      have h : ¬ patAt p (c :: cs) = true := by simpa [occursAt] using hocc0
      rw [scanR, occList, if_neg h]
      congr 1
      apply ih hov'
      intro j hj hocc
      exact hk (j + 1) (by omega) (by simpa [occursAt] using hocc)

/-- Under self-overlap freedom a fresh `g`-scan equals the occurrence list. -/
theorem scanPat_eq_occList {p : List PTok} (hov : SelfOvFree p) (s : Str) :
    scanPat p s = occList p s :=
  scanR_eq_occList (fun i j => hov s i j) (fun j hj => by omega)

/-- Splicing point for occurrence lists: when no occurrence crosses the seam,
the occurrences of a concatenation are those of the pieces. -/
theorem occList_append {p : List PTok} {a b : Str}
    (hnc : ∀ i, i < a.length → occursAt p (a ++ b) i → i + p.length ≤ a.length) :
    occList p (a ++ b) = occList p a ++ (occList p b).map (· + a.length) := by
  induction a with
  | nil =>
    simp only [List.nil_append, occList, List.length_nil]
    have hid : ((· + 0) : Nat → Nat) = id := funext fun x => Nat.add_zero x
    rw [hid, List.map_id]
  | cons c cs ih =>
    have hmap : ∀ (l : List Nat),
        (l.map (· + cs.length)).map (· + 1) = l.map (· + (cs.length + 1)) := by
      intro l
      rw [List.map_map]
      exact List.map_congr_left (fun x _ => by simp [Function.comp]; omega)
    have ihnc : ∀ i, i < cs.length → occursAt p (cs ++ b) i → i + p.length ≤ cs.length := by
      intro i hi hocc
      have hup : occursAt p ((c :: cs) ++ b) (i + 1) := by simpa [occursAt] using hocc
      have := hnc (i + 1) (by simpa using Nat.succ_lt_succ hi) hup
      simp only [List.length_cons] at this
      omega
    by_cases h : patAt p (c :: (cs ++ b)) = true
    · have hfit : p.length ≤ (c :: cs).length := by
        have := hnc 0 (by simp) (by simpa [occursAt] using h)
        simpa using this
      have hA : patAt p (c :: cs) = true := by
        have : patAt p ((c :: cs) ++ b) = true := by simpa using h
        exact patAt_of_append this hfit
      rw [List.cons_append, occList, if_pos h, occList, if_pos hA]
      rw [ih ihnc, List.map_append, hmap]
      simp
    · have hA : ¬ patAt p (c :: cs) = true := by
        intro hh
        exact h (by simpa using patAt_append_right (t := b) hh)
      rw [List.cons_append, occList, if_neg h, occList, if_neg hA]
      rw [ih ihnc, List.map_append, hmap]
      simp

/-- If no token of `p` past its head accepts the first character of `b`,
occurrences cannot cross the seam of `a ++ b` (a crossing occurrence would
need a token at offset ≥ 1 to accept that character). -/
theorem noCross_of_head_char {p : List PTok} {a b : Str} {ch : Char}
    (hb : b.head? = some ch) (hch : ∀ t ∈ p.drop 1, tokMatch t ch = false) :
    ∀ i, i < a.length → occursAt p (a ++ b) i → i + p.length ≤ a.length := by
  intro i hi hocc
  by_contra hlt
  push_neg at hlt
  unfold occursAt at hocc
  rw [List.drop_append_of_le_length (le_of_lt hi)] at hocc
  have hsplit := patAt_drop_of_append hocc
  have hlen : (a.drop i).length = a.length - i := by simp
  rw [hlen] at hsplit
  cases hpd : p.drop (a.length - i) with
  | nil =>
    have : p.length ≤ a.length - i := by
      have := congrArg List.length hpd
      simp at this
      omega
    omega
  | cons t rest =>
    cases b with
    | nil => simp at hb
    | cons c0 b' =>
      have hc0 : c0 = ch := by simpa using hb
      rw [hpd] at hsplit
      simp only [patAt, Bool.and_eq_true] at hsplit
      have ht : t ∈ p.drop 1 := by
        have h1 : (1 : Nat) ≤ a.length - i := by omega
        have : t ∈ p.drop (a.length - i) := by rw [hpd]; exact List.mem_cons_self t rest
        have hdd : p.drop (a.length - i) = (p.drop 1).drop (a.length - i - 1) := by
          rw [List.drop_drop]
          congr 1
          omega
        rw [hdd] at this
        exact List.drop_subset _ _ this
      rw [hc0] at hsplit
      rw [hch t ht] at hsplit
      exact absurd hsplit.1 (by simp)

theorem getD_append_left {a b : Str} {i : Nat} (h : i < a.length) (d : Char) :
    (a ++ b).getD i d = a.getD i d := by
  induction a generalizing i with
  | nil => simp at h
  | cons c cs ih =>
    cases i with
    | zero => simp
    | succ i' =>
      simp only [List.cons_append, List.getD_cons_succ]
      exact ih (by simpa using h)

theorem getD_mem {α : Type} {p : List α} {k : Nat} (h : k < p.length) (d : α) :
    p.getD k d ∈ p := by
  induction p generalizing k with
  | nil => simp at h
  | cons t ts ih =>
    cases k with
    | zero => simp
    | succ k' =>
      simp only [List.getD_cons_succ]
      exact List.mem_cons_of_mem _ (ih (by simpa using h))

theorem getD_getLast {α : Type} {a : List α} {ch : α} (h : a.getLast? = some ch) (d : α) :
    a.getD (a.length - 1) d = ch := by
  induction a with
  | nil => simp at h
  | cons c cs ih =>
    cases cs with
    | nil =>
      simp only [List.getLast?_singleton, Option.some.injEq] at h
      simp [h]
    | cons c2 cs2 =>
      have hlast : (c2 :: cs2).getLast? = some ch := by
        rwa [List.getLast?_cons_cons] at h
      have := ih hlast
      simp only [List.length_cons, Nat.add_sub_cancel] at this ⊢
      simpa [List.getD_cons_succ] using this

/-- If no token of `p` accepts the last character of `a`, occurrences
cannot cross the seam of `a ++ b`. -/
theorem noCross_of_last_char {p : List PTok} {a b : Str} {ch : Char}
    (ha : a.getLast? = some ch) (hch : ∀ t ∈ p, tokMatch t ch = false) :
    ∀ i, i < a.length → occursAt p (a ++ b) i → i + p.length ≤ a.length := by
  intro i hi hocc
  by_contra hlt
  push_neg at hlt
  unfold occursAt at hocc
  have hk : a.length - 1 - i < p.length := by omega
  have := patAt_getD hocc hk
  rw [getD_drop] at this
  have hpos : i + (a.length - 1 - i) = a.length - 1 := by omega
  rw [hpos] at this
  rw [getD_append_left (by omega)] at this
  rw [getD_getLast ha] at this
  rw [hch _ (getD_mem hk _)] at this
  exact absurd this (by simp)

/-- A piece none of whose characters is accepted by the head token of the
pattern contains no occurrence start at all. -/
theorem occList_eq_nil_of_head {t : PTok} {ts : List PTok} {a : Str}
    (hch : ∀ c ∈ a, tokMatch t c = false) : occList (t :: ts) a = [] := by
  induction a with
  | nil => rfl
  | cons c cs ih =>
    have h0 : ¬ patAt (t :: ts) (c :: cs) = true := by
      simp only [patAt, Bool.and_eq_true]
      intro hh
      rw [hch c (by simp)] at hh
      exact absurd hh.1 (by simp)
    rw [occList, if_neg h0, ih (fun c2 hc2 => hch c2 (List.mem_cons_of_mem _ hc2))]
    simp

theorem noCross_of_no_head {t : PTok} {ts : List PTok} {a b : Str}
    (hch : ∀ c ∈ a, tokMatch t c = false) :
    ∀ i, i < a.length → occursAt (t :: ts) (a ++ b) i → i + (t :: ts).length ≤ a.length := by
  intro i hi hocc
  exfalso
  unfold occursAt at hocc
  rw [List.drop_append_of_le_length (le_of_lt hi)] at hocc
  cases hd : a.drop i with
  | nil =>
    have := congrArg List.length hd
    simp at this
    omega
  | cons c0 rest =>
    have hc0 : c0 ∈ a := by
      have : c0 ∈ a.drop i := by rw [hd]; simp
      exact List.drop_subset _ _ this
    rw [hd] at hocc
    simp only [List.cons_append, patAt, Bool.and_eq_true] at hocc
    rw [hch c0 hc0] at hocc
    exact absurd hocc.1 (by simp)

/-- Shape of every date-heading pattern the code compiles: hash literals up to
position `h - 1`, the single space literal at `h`, and tokens that accept
neither `#` nor a space afterwards.  Patterns of this shape are self-overlap
free, so `g`-scans of them find every occurrence. -/
theorem selfOvFree_of_shape {p : List PTok} {h : Nat}
    (h0 : p.getD 0 (.lit '#') = .lit '#')
    (hsp : p.getD h (.lit '#') = .lit ' ')
    (hh : h < p.length)
    (hlen : 2 * h ≤ p.length)
    (hhash : ∀ k, k < p.length → tokMatch (p.getD k (.lit '#')) '#' = true → k < h)
    (hspu : ∀ k, k < p.length → tokMatch (p.getD k (.lit '#')) ' ' = true → k = h) :
    SelfOvFree p := by
  intro s i j hi hj hij
  by_contra hlt
  push_neg at hlt
  unfold occursAt at hi hj
  have hplen : 0 < p.length := by omega
  -- the haystack holds a hash at position j
  have hsj : s.getD j ' ' = '#' := by
    have := patAt_getD hj hplen
    rw [getD_drop, Nat.add_zero, h0] at this
    simp only [tokMatch, beq_iff_eq] at this
    exact this.symm
  -- so token j - i of the pattern accepts a hash, forcing j - i < h
  have hdlt : j - i < p.length := by omega
  have hdh : j - i < h := by
    apply hhash (j - i) hdlt
    have := patAt_getD hi hdlt
    rw [getD_drop] at this
    have hji : i + (j - i) = j := by omega
    rw [hji, hsj] at this
    exact this
  -- the haystack holds a space at position j + h
  have hsjh : s.getD (j + h) ' ' = ' ' := by
    have := patAt_getD hj hh
    rw [getD_drop, hsp] at this
    simp only [tokMatch, beq_iff_eq] at this
    exact this.symm
  -- so token (j - i) + h of the pattern accepts a space, forcing j - i = 0
  have hdh2 : j - i + h < p.length := by omega
  have := patAt_getD hi hdh2
  rw [getD_drop] at this
  have hji2 : i + (j - i + h) = j + h := by omega
  rw [hji2, hsjh] at this
  have := hspu (j - i + h) hdh2 this
  omega

/-- Index of the first suffix satisfying `f` (JS `String.match(...).index` /
`String.indexOf` for the corresponding pattern). -/
def firstIdxP (f : Str → Bool) : Str → Option Nat
  | [] => if f [] then some 0 else none
  | c :: cs => if f (c :: cs) then some 0 else (firstIdxP f cs).map (· + 1)

theorem firstIdxP_none {f : Str → Bool} {s : Str} (h : firstIdxP f s = none) :
    ∀ j, f (s.drop j) = false := by
  induction s with
  | nil =>
    intro j
    simp only [List.drop_nil]
    cases hf : f []
    · rfl
    · rw [firstIdxP, if_pos hf] at h
      cases h
  | cons c cs ih =>
    intro j
    cases hf : f (c :: cs)
    · rw [firstIdxP, if_neg (by simp [hf])] at h
      cases htail : firstIdxP f cs with
      | none =>
        cases j with
        | zero => simpa using hf
        | succ j' => simpa using ih htail j'
      | some k => rw [htail] at h; cases h
    · rw [firstIdxP, if_pos hf] at h
      cases h

theorem firstIdxP_some {f : Str → Bool} {s : Str} {i : Nat}
    (h : firstIdxP f s = some i) :
    f (s.drop i) = true ∧ ∀ j, j < i → f (s.drop j) = false := by
  induction s generalizing i with
  | nil =>
    cases hf : f []
    · rw [firstIdxP, if_neg (by simp [hf])] at h
      cases h
    · rw [firstIdxP, if_pos hf] at h
      cases h
      exact ⟨by simpa using hf, fun j hj => by omega⟩
  | cons c cs ih =>
    cases hf : f (c :: cs)
    · rw [firstIdxP, if_neg (by simp [hf])] at h
      cases htail : firstIdxP f cs with
      | none => rw [htail] at h; cases h
      | some k =>
        rw [htail] at h
        simp only [Option.map_some', Option.some.injEq] at h
        subst h
        obtain ⟨h1, h2⟩ := ih htail
        refine ⟨by simpa using h1, ?_⟩
        intro j hj
        cases j with
        | zero => simpa using hf
        | succ j' => simpa using h2 j' (by omega)
    · rw [firstIdxP, if_pos hf] at h
      cases h
      exact ⟨by simpa using hf, fun j hj => by omega⟩

/-- The first position of a `g`-scan's occurrence list is the position a
plain first-match search returns. -/
theorem firstIdxP_patAt_head {t : PTok} {ts : List PTok} (s : Str) :
    firstIdxP (fun r => patAt (t :: ts) r) s = (occList (t :: ts) s).head? := by
  induction s with
  | nil =>
    rw [firstIdxP, if_neg (by simp [patAt])]
    rfl
  | cons c cs ih =>
    by_cases hf : patAt (t :: ts) (c :: cs) = true
    · rw [firstIdxP, if_pos hf, occList, if_pos hf]
      rfl
    · rw [firstIdxP, if_neg hf, occList, if_neg hf]
      rw [ih]
      cases occList (t :: ts) cs <;> rfl

theorem patAt_append_pat {p q : List PTok} {s t : Str} (hp : patAt p s = true)
    (hlen : p.length = s.length) (hq : patAt q t = true) :
    patAt (p ++ q) (s ++ t) = true := by
  induction p generalizing s with
  | nil =>
    cases s with
    | nil => simpa using hq
    | cons c cs => simp at hlen
  | cons tok toks ih =>
    cases s with
    | nil => simp at hlen
    | cons c cs =>
      simp only [patAt, Bool.and_eq_true] at hp
      simp only [List.cons_append, patAt, Bool.and_eq_true]
      exact ⟨hp.1, ih hp.2 (by simpa using hlen)⟩

theorem lits_length (w : Str) : (lits w).length = w.length := by
  simp [lits]

theorem patAt_lits_self (w : Str) : patAt (lits w) w = true := pfx_refl w

structure CategoryConfig where
  id : Str
  label : Str
  description : Str
  placeholder : Str

structure LogEntry where
  date : Str
  category : Str
  description : Str
  relatedNote : Option Str
  timestamp : Int

/-- `WorkLogSettings` (the fields the embedded components consume). -/
structure WSettings where
  logFilePath : Str
  workLogDateHeadingLevel : Str
  workLogDateAsLink : Bool
  relatedNoteDateHeadingLevel : Str
  relatedNoteSectionHeading : Str
  separateEntriesWithBlankLine : Bool
  showCategoryInLog : Bool
  showCategoryInRelatedNote : Bool
  showTimestamps : Bool
  createRelatedNoteIfMissing : Bool
  newRelatedNoteFolder : Str
  categories : List CategoryConfig

/-- External collaborators: the `moment(timestamp).format('HH:mm')` renderer
and the host's case-insensitive name resolution
(`metadataCache.getFirstLinkpathDest`), yielding a vault path when the note
exists. -/
structure Env where
  fmtHHMM : Int → Str
  resolveName : Str → Option Str

def getCategoryLabel (cats : List CategoryConfig) (id : Str) : Str :=
  match cats.find? (fun c => c.id == id) with
  | some c => c.label
  | none => id

def defaultCategories : List CategoryConfig :=
  [⟨str "demo", str "Demo", str "Customer demos, presentations, workshops",
    str "Delivered Next.js migration demo to Acme Corp"⟩,
   ⟨str "customer", str "Customer", str "Calls, support, follow-ups, relationships",
    str "Helped John Doe troubleshoot deployment issue"⟩,
   ⟨str "technical", str "Technical", str "POCs, integrations, troubleshooting, docs",
    str "Built POC for edge middleware integration"⟩,
   ⟨str "collaboration", str "Collaboration",
    str "Helping teammates, internal meetings, cross-team work",
    str "Reviewed Sarah's demo script, shared feedback"⟩,
   ⟨str "win", str "Win", str "Deals closed, achievements, milestones, metrics",
    str "Closed deal with Acme Corp - $50k ARR"⟩]

/-- `DEFAULT_SETTINGS` (fields used here). -/
def defaultSettings : WSettings where
  logFilePath := str "work-log.md"
  workLogDateHeadingLevel := str "##"
  workLogDateAsLink := true
  relatedNoteDateHeadingLevel := str "###"
  relatedNoteSectionHeading := str "## Notes"
  separateEntriesWithBlankLine := true
  showCategoryInLog := true
  showCategoryInRelatedNote := false
  showTimestamps := false
  createRelatedNoteIfMissing := true
  newRelatedNoteFolder := str "References"
  categories := defaultCategories

/-! ### Entry formatting (`formatMultiLineDescription`, `formatLogEntry`,
`formatRelatedNoteEntry`) -/

/-- JS `split('\n')`. -/
def splitNl : Str → List Str
  | [] => [[]]
  | c :: cs =>
    if c = '\n' then [] :: splitNl cs
    else
      match splitNl cs with
      | [] => [[c]]
      | l :: ls => (c :: l) :: ls

/-- `formatMultiLineDescription`: single-line input unchanged; otherwise the
first line is kept, every later non-blank line is trimmed and indented two
spaces (the source's list-marker branch and plain branch produce the same
text), and blank lines are dropped. -/
def formatMultiLineDescription (d : Str) : Str :=
  match splitNl d with
  | [] => d
  | [_] => d
  | l :: ls =>
    let rest := (ls.map fun line =>
      if jsTrim line ≠ [] then str "  " ++ jsTrim line else []).filter (fun x => x ≠ [])
    List.intercalate (str "\n") (l :: rest)

/-- `formatLogEntry`. -/
def formatLogEntry (env : Env) (s : WSettings) (e : LogEntry) : Str :=
  let desc := formatMultiLineDescription e.description
  let parts : List Str :=
    (if s.showCategoryInLog then
      [str "**" ++ getCategoryLabel s.categories e.category ++ str "**"] else [])
    ++ (match e.relatedNote with
        | some n => [str "[[" ++ n ++ str "]]"]
        | none => [])
    ++ (if s.showTimestamps then [env.fmtHHMM e.timestamp] else [])
  if parts.isEmpty then str "- " ++ desc
  else if s.showCategoryInLog then
    match parts with
    | cat :: rest =>
      if rest.isEmpty then str "- " ++ cat ++ str ": " ++ desc
      else str "- " ++ cat ++ str " (" ++ List.intercalate (str ", ") rest ++ str "): " ++ desc
    | [] => str "- " ++ desc
  else str "- (" ++ List.intercalate (str ", ") parts ++ str "): " ++ desc

/-- `formatRelatedNoteEntry`. -/
def formatRelatedNoteEntry (env : Env) (s : WSettings) (e : LogEntry) : Str :=
  let desc := formatMultiLineDescription e.description
  if s.showCategoryInRelatedNote then
    let label := getCategoryLabel s.categories e.category
    if s.showTimestamps then
      str "**" ++ label ++ str "** (" ++ env.fmtHHMM e.timestamp ++ str "): " ++ desc
    else str "**" ++ label ++ str "**: " ++ desc
  else desc

/-! ### Date-heading patterns (`buildDatePattern`, `buildDateHeading`)

`escapeHeadingLevel` escapes regex metacharacters, and heading levels contain
only `#`, so the compiled patterns are the literal level, a space, and the
date group (wrapped in literal brackets in link mode). -/

def dateToks : List PTok :=
  [.digit, .digit, .digit, .digit, .lit '-', .digit, .digit, .lit '-', .digit, .digit]

/-- A well-formed `YYYY-MM-DD` date string. -/
def wellFormedDate (d : Str) : Bool := d.length == 10 && patAt dateToks d

/-- The compiled date-heading pattern of `buildDatePattern`. -/
def datePatFor (lv : Str) (asLink : Bool) : List PTok :=
  lits lv ++ [.lit ' '] ++
    (if asLink then [.lit '[', .lit '['] ++ dateToks ++ [.lit ']', .lit ']'] else dateToks)

/-- Offset of the captured date group inside a date-heading match. -/
def capOff (lv : Str) (asLink : Bool) : Nat := lv.length + 1 + (if asLink then 2 else 0)

/-- `buildDateHeading(date, true)`. -/
def buildDateHeadingLog (lv : Str) (asLink : Bool) (date : Str) : Str :=
  if asLink then lv ++ str " [[" ++ date ++ str "]]" else lv ++ str " " ++ date

/-- `buildDateHeading(date, false)`: related notes always use `[[date]]`. -/
def buildDateHeadingRel (lv : Str) (date : Str) : Str :=
  lv ++ str " [[" ++ date ++ str "]]"

/-- Captured date of a date-heading match at position `i` of `s`. -/
def dateAtPos (off : Nat) (s : Str) (i : Nat) : Str := (s.drop (i + off)).take 10

/-- Left-to-right scan of the date headings of a document: the dates captured
by a fresh `g`-scan of the compiled heading pattern. -/
def headingDates (lv : Str) (asLink : Bool) (s : Str) : List Str :=
  (scanPat (datePatFor lv asLink) s).map (dateAtPos (capOff lv asLink) s)

/-- The `while ((match = datePattern.exec(content)) !== null)` loop: position
of the first scanned heading whose captured date exceeds `target`. -/
def firstGreaterPos (lv : Str) (asLink : Bool) (target : Str) (s : Str) : Option Nat :=
  (scanPat (datePatFor lv asLink) s).find?
    (fun i => lexLt target (dateAtPos (capOff lv asLink) s i))

/-! ### `LogManager` insertion engine -/

/-- The configured entry separator. -/
def sepFor (blank : Bool) : Str := if blank then str "\n\n" else str "\n"

/-- `cachedNextHeadingPattern` search in `insertEntryToLog`: position of the
next `"\n" + level + " "` at or after `afterIdx`, else the document length. -/
def sectionEndLog (lv : Str) (content : Str) (afterIdx : Nat) : Nat :=
  match firstIdxP (pfx ('\n' :: (lv ++ [' ']))) (content.drop afterIdx) with
  | some m => afterIdx + m
  | none => content.length

/-- `LogManager.insertEntryToLog` with the formatted entry line as an
argument (the code formats it with `formatLogEntry` first). -/
def insertEntryToLogLine (lv : Str) (asLink blank : Bool)
    (content date entryLine : Str) : Str :=
  let dH := buildDateHeadingLog lv asLink date
  match firstIdxP (pfx dH) content with
  | some hi =>
    let se := sectionEndLog lv content (hi + dH.length)
    trimEnd (content.take se) ++ sepFor blank ++ entryLine ++ content.drop se
  | none =>
    let newSection := dH ++ str "\n\n" ++ entryLine ++ str "\n"
    match firstGreaterPos lv asLink date content with
    | none => trimEnd content ++ str "\n\n" ++ newSection
    | some ip => content.take ip ++ newSection ++ str "\n" ++ content.drop ip

def insertEntryToLog (env : Env) (s : WSettings) (content : Str) (e : LogEntry) : Str :=
  insertEntryToLogLine s.workLogDateHeadingLevel s.workLogDateAsLink
    s.separateEntriesWithBlankLine content e.date (formatLogEntry env s e)

/-- `LogManager.findFrontmatterEnd`. -/
def findFrontmatterEnd (content : Str) : Nat :=
  if pfx (str "---") content then
    match firstIdxP (pfx (str "\n---\n")) (content.drop 3) with
    | some i => 3 + i + 5
    | none => 0
  else 0

/-- Multiline `$` anchor: end of string, or just before a `'\n'`. -/
def eolAt (s : Str) (j : Nat) : Bool :=
  if s.length ≤ j then true else (s.drop j).head? == some '\n'

/-- Greedy-then-backtracking `\s*$`: the largest `k` within the leading
whitespace run of `r` whose end is an end-of-line. -/
def wsEolDown (r : Str) : Nat → Option Nat
  | 0 => if eolAt r 0 then some 0 else none
  | k + 1 => if eolAt r (k + 1) then some (k + 1) else wsEolDown r k

def wsEol (r : Str) : Option Nat := wsEolDown r (r.takeWhile isWsJs).length

/-- First multiline match of `^H\s*$` (the notes-section heading search);
returns `(match.index, match[0].length)`.  The flag records whether the
current position is a line start. -/
def notesSecGo (H : Str) : Str → Bool → Option (Nat × Nat)
  | [], ls =>
    if ls && pfx H [] then
      match wsEol [] with
      | some k => some (0, H.length + k)
      | none => none
    else none
  | c :: cs, ls =>
    match (if ls && pfx H (c :: cs) then wsEol ((c :: cs).drop H.length) else none) with
    | some k => some (0, H.length + k)
    | none => (notesSecGo H cs (c == '\n')).map (fun pr => (pr.1 + 1, pr.2))

def notesSecFind (H content : Str) : Option (Nat × Nat) := notesSecGo H content true

/-- The hardcoded `\n## [^#]` bounding the notes section. -/
def nextH2Pat : List PTok := [.lit '\n', .lit '#', .lit '#', .lit ' ', .nonHash]

/-- The hardcoded `\n###? ` bounding a date subsection: a `"\n## "` or
`"\n### "` prefix (the two alternatives are mutually exclusive). -/
def nextSubPred (r : Str) : Bool := pfx (str "\n## ") r || pfx (str "\n### ") r

/-- `notesSectionEnd`: the next `\n## [^#]` after the section-heading match,
else the document end. -/
def notesSectionEndOf (content : Str) (ns ml : Nat) : Nat :=
  match firstIdxP (fun r => patAt nextH2Pat r) (content.drop (ns + ml)) with
  | some m => ns + ml + m
  | none => content.length

/-- `LogManager.insertEntryToRelatedNote` with the formatted entry line as an
argument. -/
def insertEntryToRelatedNoteLine (secH lv : Str) (blank : Bool)
    (content date entryLine : Str) : Str :=
  let dH := buildDateHeadingRel lv date
  match notesSecFind secH content with
  | none =>
    let fm := findFrontmatterEnd content
    let block := secH ++ str "\n\n" ++ dH ++ str "\n" ++ entryLine ++ str "\n"
    if fm = 0 then block ++ str "\n" ++ content
    else content.take fm ++ str "\n" ++ block ++ str "\n" ++ content.drop fm
  | some (ns, ml) =>
    let nse := notesSectionEndOf content ns ml
    let notesSection := (content.take nse).drop ns
    match firstIdxP (pfx dH) notesSection with
    | some di =>
      let dpos := ns + di
      let ins :=
        match firstIdxP nextSubPred (content.drop (dpos + dH.length)) with
        | some m => dpos + dH.length + m
        | none => nse
      trimEnd (content.take ins) ++ sepFor blank ++ entryLine ++ str "\n" ++ content.drop ins
    | none =>
      let sub := dH ++ str "\n" ++ entryLine ++ str "\n"
      match firstGreaterPos lv true date notesSection with
      | none => trimEnd (content.take nse) ++ str "\n" ++ sub ++ content.drop nse
      | some q => trimEnd (content.take (ns + q)) ++ str "\n" ++ sub ++ content.drop (ns + q)

def insertEntryToRelatedNote (env : Env) (s : WSettings) (content : Str)
    (e : LogEntry) : Str :=
  insertEntryToRelatedNoteLine s.relatedNoteSectionHeading s.relatedNoteDateHeadingLevel
    s.separateEntriesWithBlankLine content e.date (formatRelatedNoteEntry env s e)

/-! ### `AutoLinker` (auto-linker.ts)

JS strings are rewritten by `String.prototype.replace` with a `g`-flag
pattern and a callback: matches are found left to right, non-overlapping,
each match is replaced by the callback result, and replacements are **not**
rescanned.  `gReplaceGo` is that loop; `prev` carries the character before
the current position (for the `(?<![\[\w])` lookbehind) and `skip` counts
the remaining characters of a match already consumed. -/

def toLowerStr (s : Str) : Str := s.map Char.toLower

/-- Case-insensitive literal prefix match (ASCII case folding, as the `i`
flag canonicalises). -/
def ciPfx : Str → Str → Bool
  | [], _ => true
  | _ :: _, [] => false
  | a :: as, b :: bs => (a.toLower == b.toLower) && ciPfx as bs

/-- JS `\w`. -/
def isWordChar (c : Char) : Bool :=
  ('a' ≤ c && c ≤ 'z') || ('A' ≤ c && c ≤ 'Z') || ('0' ≤ c && c ≤ '9') || c == '_'

/-- One compiled name matcher (`CachedNotePattern`). -/
structure NotePattern where
  name : Str
  originalName : Str

/-- The `g`-flag replace loop shared by every pass of `processText`. -/
def gReplaceGo {σ : Type} (m : Option Char → Str → Option Nat)
    (f : Str → σ → Str × σ) : Str → Option Char → Nat → σ → Str × σ
  | [], _, _, st => ([], st)
  | c :: cs, _, skip + 1, st => gReplaceGo m f cs (some c) skip st
  | c :: cs, prev, 0, st =>
    match m prev (c :: cs) with
    | some len =>
      let rep := f ((c :: cs).take len) st
      let rest := gReplaceGo m f cs (some c) (len - 1) rep.2
      (rep.1 ++ rest.1, rest.2)
    | none =>
      let rest := gReplaceGo m f cs (some c) 0 st
      (c :: rest.1, rest.2)

def gReplace {σ : Type} (m : Option Char → Str → Option Nat)
    (f : Str → σ → Str × σ) (s : Str) (st : σ) : Str × σ :=
  gReplaceGo m f s none 0 st

/-- Digits of the placeholder counter. -/
def natDigits (n : Nat) : Str := Nat.toDigits 10 n

/-- `__PLACEHOLDER_${i}__`. -/
def phToken (i : Nat) : Str := str "__PLACEHOLDER_" ++ natDigits i ++ str "__"

/-- Characters allowed in a URL body: `[^\s<>[\]]`. -/
def isUrlBodyChar (c : Char) : Bool :=
  !(isWsJs c || c == '<' || c == '>' || c == '[' || c == ']')

/-- Length of a match of `/https?:\/\/[^\s<>[\]]+/i` at the front of `s`. -/
def urlMatchLen (s : Str) : Option Nat :=
  if ciPfx (str "https://") s then
    let body := (s.drop 8).takeWhile isUrlBodyChar
    if body.length > 0 then some (8 + body.length) else none
  else if ciPfx (str "http://") s then
    let body := (s.drop 7).takeWhile isUrlBodyChar
    if body.length > 0 then some (7 + body.length) else none
  else none

/-- Length of a match of `/\[\[[^\]]+\]\]/` at the front of `s`. -/
def wikiMatchLen (s : Str) : Option Nat :=
  match s with
  | '[' :: '[' :: rest =>
    let body := rest.takeWhile (fun c => c != ']')
    if body.length > 0 then
      if pfx (str "]]") (rest.drop body.length) then some (2 + body.length + 2)
      else none
    else none
  | _ => none

/-- Length of a match of `(?<![\[\w])name(?![\]\w])` (flags `gi`) at the
front of `s`, given the character just before the position. -/
def nameMatchLen (name : Str) (prev : Option Char) (s : Str) : Option Nat :=
  if (match prev with
      | some c => !(c == '[' || isWordChar c)
      | none => true)
     && ciPfx name s
     && (match s.drop name.length with
         | [] => true
         | c :: _ => !(c == ']' || isWordChar c))
  then some name.length else none

/-- Length of a match of `/__PLACEHOLDER_(\d+)__/` at the front of `s`. -/
def restoreMatchLen (s : Str) : Option Nat :=
  if pfx (str "__PLACEHOLDER_") s then
    let ds := (s.drop 14).takeWhile Char.isDigit
    if ds.length > 0 && pfx (str "__") (s.drop (14 + ds.length)) then
      some (14 + ds.length + 2)
    else none
  else none

/-- `parseInt` on the captured digit run. -/
def digitsToNat (ds : Str) : Nat := ds.foldl (fun a c => a * 10 + (c.toNat - 48)) 0

/-- Protection passes: each match becomes the next placeholder token and is
recorded. -/
def protectStep (mt : Str) (acc : List Str) : Str × List Str :=
  (phToken acc.length, acc ++ [mt])

/-- A name pass: canonical link, alias form when the matched casing differs. -/
def nameStep (orig : Str) (mt : Str) (u : Unit) : Str × Unit :=
  (if mt == orig then str "[[" ++ orig ++ str "]]"
   else str "[[" ++ orig ++ str "|" ++ mt ++ str "]]", u)

/-- The restore pass: a token becomes its recorded original (JS yields the
text `undefined` for an out-of-range index). -/
def restoreStep (ph : List Str) (mt : Str) (u : Unit) : Str × Unit :=
  (ph.getD (digitsToNat ((mt.drop 14).takeWhile Char.isDigit)) (str "undefined"), u)

/-- `AutoLinker.processText` over a compiled pattern list. -/
def processText (patterns : List NotePattern) (text : Str) : Str :=
  if text.isEmpty || patterns.isEmpty then text
  else
    let u := gReplace (fun _ s => urlMatchLen s) protectStep text []
    let w := gReplace (fun _ s => wikiMatchLen s) protectStep u.1 u.2
    let linked := patterns.foldl
      (fun t p => (gReplace (nameMatchLen p.name) (nameStep p.originalName) t ()).1) w.1
    (gReplace (fun _ s => restoreMatchLen s) (restoreStep w.2) linked ()).1

/-! ### The auto-link index (`noteNames`, `noteNamesLower`, `rebuildSortedList`) -/

/-- Index state: insertion-ordered name set and the lowercase→original map
(modelled as an append log; the latest binding wins, as `Map.set` does). -/
structure LinkerState where
  noteNames : List Str
  lowerMap : List (Str × Str)

def emptyLinker : LinkerState := ⟨[], []⟩

def mapSet (m : List (Str × Str)) (k v : Str) : List (Str × Str) := m ++ [(k, v)]

def mapGet (m : List (Str × Str)) (k : Str) : Option Str :=
  (m.reverse.find? (fun p => p.1 == k)).map (·.2)

/-- `AutoLinker.addNote`: idempotent insertion into both structures. -/
def addNote (st : LinkerState) (name : Str) : LinkerState :=
  if st.noteNames.contains name then st
  else ⟨st.noteNames ++ [name], mapSet st.lowerMap (toLowerStr name) name⟩

def mkLinker (names : List Str) : LinkerState := names.foldl addNote emptyLinker

/-- Stable insertion for the descending-length sort (`(a, b) => b.length -
a.length` under JS's stable `Array.prototype.sort`). -/
def insDescLen (a : Str) : List Str → List Str
  | [] => [a]
  | b :: bs => if b.length ≤ a.length then a :: b :: bs else b :: insDescLen a bs

def sortByLenDesc (l : List Str) : List Str := l.foldr insDescLen []

/-- `AutoLinker.rebuildSortedList`: drop names of length ≤ 2, sort the rest
longest first, and pair each with its canonical casing. -/
def rebuildSortedList (st : LinkerState) : List NotePattern :=
  (sortByLenDesc (st.noteNames.filter (fun n => 2 < n.length))).map
    (fun n => ⟨n, (mapGet st.lowerMap (toLowerStr n)).getD n⟩)

/-- `processText` as invoked on a linker state. -/
def processTextSt (st : LinkerState) (text : Str) : Str :=
  processText (rebuildSortedList st) text

/-- Substring occurrence test. -/
def containsSub (w s : Str) : Bool := (firstIdxP (pfx w) s).isSome

theorem firstIdxP_eq_some {f : Str → Bool} {s : Str} {i : Nat}
    (h1 : f (s.drop i) = true) (h2 : ∀ j, j < i → f (s.drop j) = false) :
    firstIdxP f s = some i := by
  induction s generalizing i with
  | nil =>
    cases i with
    | zero => simpa [firstIdxP] using h1
    | succ i' =>
      have := h2 0 (by omega)
      simp only [List.drop_nil] at this h1
      rw [this] at h1
      cases h1
  | cons c cs ih =>
    cases i with
    | zero => rw [firstIdxP, if_pos (by simpa using h1)]
    | succ i' =>
      have h0 : f (c :: cs) = false := by simpa using h2 0 (by omega)
      rw [firstIdxP, if_neg (by simp [h0])]
      rw [ih (by simpa using h1) (fun j hj => by simpa using h2 (j + 1) (by omega))]
      rfl

theorem firstIdxP_eq_none {f : Str → Bool} {s : Str}
    (h : ∀ j, f (s.drop j) = false) : firstIdxP f s = none := by
  cases hfi : firstIdxP f s with
  | none => rfl
  | some i =>
    have := (firstIdxP_some hfi).1
    rw [h i] at this
    cases this

/-! ### Claims about the auto-linker -/

/-- C2: with "John", "John Doe" and "John Doe Smith" indexed, `processText`
applied to "Met John Doe Smith today" links only the longest name — the
compiled matcher list is ordered by descending name length, and the
lookbehind of the later, shorter matchers rejects the freshly created link
span. -/
theorem c2_longest_match_wins :
    processTextSt (mkLinker [str "John", str "John Doe", str "John Doe Smith"])
        (str "Met John Doe Smith today") = str "Met [[John Doe Smith]] today" ∧
    (rebuildSortedList (mkLinker [str "John", str "John Doe", str "John Doe Smith"])).map
        (fun p => p.name)
      = [str "John Doe Smith", str "John Doe", str "John"] := by
  constructor
  · decide
  · decide

/-- C3 refuted on the code: for input `[[ahttp://xb]]` (a URL nested in a
pre-existing wiki link) with any indexed name, the output is
`[[a__PLACEHOLDER_0__]]` — neither the URL span nor the wiki-link span of the
input appears byte-identical in the output, because the single restore pass
never rescans the text substituted for the outer placeholder.  This
contradicts the documented intent "Preserves existing [[links]], URLs". -/
theorem c3_url_in_wikilink_not_preserved :
    processTextSt (mkLinker [str "zzz"]) (str "[[ahttp://xb]]")
        = str "[[a__PLACEHOLDER_0__]]" ∧
    containsSub (str "http://xb")
        (processTextSt (mkLinker [str "zzz"]) (str "[[ahttp://xb]]")) = false ∧
    containsSub (str "[[ahttp://xb]]")
        (processTextSt (mkLinker [str "zzz"]) (str "[[ahttp://xb]]")) = false := by
  refine ⟨by decide, by decide, by decide⟩

/-- C10 refuted on the code: the input `see [[xhttp://a]]` contains no
`__PLACEHOLDER_` marker, yet the output of `processText` does — the
placeholder protecting the nested URL is introduced but never restored. -/
theorem c10_placeholder_escapes :
    containsSub (str "__PLACEHOLDER_") (str "see [[xhttp://a]]") = false ∧
    containsSub (str "__PLACEHOLDER_")
        (processTextSt (mkLinker [str "zzz"]) (str "see [[xhttp://a]]")) = true := by
  refine ⟨by decide, by decide⟩

/-- C8: `processText` returns its input exactly when the text is empty or no
names are indexed (an empty index compiles to an empty matcher list, so the
early-return branch is taken). -/
theorem c8_processText_identity (names : List Str) (text : Str)
    (h : text = [] ∨ names = []) :
    processTextSt (mkLinker names) text = text := by
  rcases h with rfl | rfl
  · unfold processTextSt processText
    simp
  · unfold processTextSt processText mkLinker emptyLinker rebuildSortedList sortByLenDesc
    simp

/-- Witness for C8 at a concrete input. -/
theorem c8_processText_identity_witness :
    processTextSt (mkLinker []) (str "hello x") = str "hello x" :=
  c8_processText_identity [] (str "hello x") (Or.inr rfl)

/-! ### Claim about `findFrontmatterEnd` -/

/-- C7: `findFrontmatterEnd` returns 0 when the content does not start with
`---`; when it starts with `---` and a first line consisting solely of `---`
(with its trailing newline) closes the block, it returns the offset just past
that newline; and when no closing delimiter occurs it returns 0. -/
theorem c7_findFrontmatterEnd (content : Str) :
    (pfx (str "---") content = false → findFrontmatterEnd content = 0) ∧
    (∀ a b : Str, content = str "---" ++ (a ++ (str "\n---\n" ++ b)) →
      (∀ j, j < a.length →
        pfx (str "\n---\n") ((a ++ (str "\n---\n" ++ b)).drop j) = false) →
      findFrontmatterEnd content = 3 + a.length + 5) ∧
    (pfx (str "---") content = true →
      (∀ j, pfx (str "\n---\n") ((content.drop 3).drop j) = false) →
      findFrontmatterEnd content = 0) := by
  refine ⟨?_, ?_, ?_⟩
  · intro h
    unfold findFrontmatterEnd
    rw [if_neg (by simp [h])]
  · intro a b hc hmin
    have hdrop3 : content.drop 3 = a ++ (str "\n---\n" ++ b) := by
      rw [hc]
      have h3 : (3 : Nat) = (str "---").length := rfl
      rw [h3]
      exact List.drop_left _ _
    have hstart : pfx (str "---") content = true := by
      rw [hc]
      exact pfx_append _ _
    have h1 : pfx (str "\n---\n") ((content.drop 3).drop a.length) = true := by
      rw [hdrop3, List.drop_left]
      exact pfx_append _ _
    have hfi : firstIdxP (pfx (str "\n---\n")) (content.drop 3) = some a.length := by
      apply firstIdxP_eq_some h1
      intro j hj
      rw [hdrop3]
      exact hmin j hj
    unfold findFrontmatterEnd
    rw [if_pos hstart, hfi]
  · intro hstart hnone
    unfold findFrontmatterEnd
    rw [if_pos hstart, firstIdxP_eq_none hnone]

/-- Witness for C7: a concretely delimited frontmatter block. -/
theorem c7_findFrontmatterEnd_witness :
    findFrontmatterEnd (str "---\nt: x\n---\nbody") = 13 :=
  (c7_findFrontmatterEnd (str "---\nt: x\n---\nbody")).2.1 (str "\nt: x") (str "body")
    (by decide) (by decide)

/-! ### Vault and plugin orchestration (`main.ts` / the stateful half of
`log-manager.ts`), with file storage as explicit state -/

/-- Vault: association of path to file content (folders are implicit). -/
abbrev Vault := List (Str × Str)

def vaultRead (v : Vault) (p : Str) : Str :=
  ((v.find? (fun f => f.1 == p)).map (fun f => f.2)).getD []

def vaultHas (v : Vault) (p : Str) : Bool := (v.find? (fun f => f.1 == p)).isSome

def vaultWrite (v : Vault) (p c : Str) : Vault :=
  if vaultHas v p then v.map (fun f => if f.1 == p then (p, c) else f) else v ++ [(p, c)]

/-- Errors `LogManager` raises towards the caller. -/
inductive LmError where
  | notFound : Str → LmError
deriving DecidableEq

/-- Header written by `getOrCreateLogFile` for a fresh log file. -/
def logHeader : Str :=
  str "# work-log\n\nA continuous log of work activities, achievements, and contributions.\n\n"

/-- `LogManager.addEntry`: ensure the log file, read, splice, write. -/
def lmAddEntry (env : Env) (s : WSettings) (v : Vault) (e : LogEntry) : Vault :=
  let p := s.logFilePath
  let v1 := if vaultHas v p then v else vaultWrite v p logHeader
  vaultWrite v1 p (insertEntryToLog env s (vaultRead v1 p) e)

/-- Path built by `createRelatedNote`. -/
def relatedNotePath (s : WSettings) (name : Str) : Str :=
  let folder := jsTrim s.newRelatedNoteFolder
  if folder = [] then name ++ str ".md" else folder ++ str "/" ++ name ++ str ".md"

/-- `LogManager.createRelatedNote`: a fresh note holding the section heading,
one date subsection and the entry. -/
def createRelatedNote (env : Env) (s : WSettings) (v : Vault) (name : Str)
    (e : LogEntry) : Vault :=
  let dateHeading := buildDateHeadingRel s.relatedNoteDateHeadingLevel e.date
  let entryLine := formatRelatedNoteEntry env s e
  vaultWrite v (relatedNotePath s name)
    (s.relatedNoteSectionHeading ++ str "\n\n" ++ dateHeading ++ str "\n" ++
      entryLine ++ str "\n")

/-- `LogManager.addToRelatedNote`: resolve the name, create the note when
allowed, raise the NotFound error otherwise, else splice into the note. -/
def addToRelatedNote (env : Env) (s : WSettings) (v : Vault) (name : Str)
    (e : LogEntry) : Except LmError Vault :=
  match env.resolveName name with
  | none =>
    if s.createRelatedNoteIfMissing then .ok (createRelatedNote env s v name e)
    else .error (.notFound name)
  | some p => .ok (vaultWrite v p (insertEntryToRelatedNote env s (vaultRead v p) e))

/-- Outcome the orchestration reports to the user: the success notice, or the
caught related-note failure ("Added to work log, but failed to add to ..."). -/
inductive Outcome where
  | success : Outcome
  | partialFailure : LmError → Outcome
deriving DecidableEq

/-- `WorkLogPlugin.addEntry`: the primary-log write commits first; a failing
related-note write is caught and reported as a distinct partial failure, and
the primary write is not rolled back. -/
def pluginAddEntry (env : Env) (s : WSettings) (v : Vault) (e : LogEntry) :
    Vault × Outcome :=
  let v1 := lmAddEntry env s v e
  match e.relatedNote with
  | none => (v1, .success)
  | some n =>
    match addToRelatedNote env s v1 n e with
    | .ok v2 => (v2, .success)
    | .error err => (v1, .partialFailure err)

/-- C9: when the requested related note does not resolve and auto-creation is
disabled, the related-note insertion raises the distinct NotFound error; the
already-committed primary-log write is unaffected (the plugin returns the
primary-only vault), and the two writes' outcomes are reported independently
via the partial-failure outcome. -/
theorem c9_related_notfound_keeps_primary (env : Env) (s : WSettings) (v : Vault)
    (e : LogEntry) (n : Str)
    (hrel : e.relatedNote = some n)
    (hres : env.resolveName n = none)
    (hcreate : s.createRelatedNoteIfMissing = false) :
    addToRelatedNote env s (lmAddEntry env s v e) n e = .error (.notFound n) ∧
    pluginAddEntry env s v e = (lmAddEntry env s v e, .partialFailure (.notFound n)) := by
  have h1 : addToRelatedNote env s (lmAddEntry env s v e) n e = .error (.notFound n) := by
    unfold addToRelatedNote
    rw [hres, hcreate]
    simp
  refine ⟨h1, ?_⟩
  unfold pluginAddEntry
  rw [hrel]
  simp only [h1]

/-- Witness for C9 at a concrete vault, settings and entry. -/
theorem c9_related_notfound_keeps_primary_witness :
    (addToRelatedNote ⟨fun _ => str "00:00", fun _ => none⟩
        { defaultSettings with createRelatedNoteIfMissing := false }
        (lmAddEntry ⟨fun _ => str "00:00", fun _ => none⟩
          { defaultSettings with createRelatedNoteIfMissing := false } []
          ⟨str "2025-01-15", str "customer", str "helped", some (str "John"), 0⟩)
        (str "John")
        ⟨str "2025-01-15", str "customer", str "helped", some (str "John"), 0⟩
      = .error (.notFound (str "John"))) ∧
    (pluginAddEntry ⟨fun _ => str "00:00", fun _ => none⟩
        { defaultSettings with createRelatedNoteIfMissing := false } []
        ⟨str "2025-01-15", str "customer", str "helped", some (str "John"), 0⟩
      = (lmAddEntry ⟨fun _ => str "00:00", fun _ => none⟩
          { defaultSettings with createRelatedNoteIfMissing := false } []
          ⟨str "2025-01-15", str "customer", str "helped", some (str "John"), 0⟩,
         .partialFailure (.notFound (str "John")))) :=
  c9_related_notfound_keeps_primary _ _ _ _ _ rfl rfl rfl

/-! ### Section extents, line by line (claim C5) -/

theorem splitNl_ne_nil (s : Str) : splitNl s ≠ [] := by
  cases s with
  | nil => simp [splitNl]
  | cons c cs =>
    unfold splitNl
    by_cases h : c = '\n'
    · simp [h]
    · simp only [if_neg h]
      cases splitNl cs <;> simp

/-- Structure of `splitNl`: the first line, and either nothing or a newline
followed by the text whose lines are the remaining ones. -/
theorem splitNl_decomp (s : Str) :
    ∃ l0 ls t, splitNl s = l0 :: ls ∧ s = l0 ++ t ∧
      ((t = [] ∧ ls = []) ∨ ∃ t', t = '\n' :: t' ∧ splitNl t' = ls) ∧ '\n' ∉ l0 := by
  induction s with
  | nil => exact ⟨[], [], [], rfl, rfl, Or.inl ⟨rfl, rfl⟩, by simp⟩
  | cons c cs ih =>
    by_cases h : c = '\n'
    · subst h
      exact ⟨[], splitNl cs, '\n' :: cs, by simp [splitNl], rfl,
        Or.inr ⟨cs, rfl, rfl⟩, by simp⟩
    · obtain ⟨l0, ls, t, h1, h2, h3, h4⟩ := ih
      refine ⟨c :: l0, ls, t, ?_, by simp [h2], h3, ?_⟩
      · unfold splitNl
        rw [if_neg h, h1]
      · simp only [List.mem_cons, not_or]
        exact ⟨fun hh => h hh.symm, h4⟩

theorem mem_of_lit_mem_lits {w : Str} {tok : PTok} (h : tok ∈ lits w) :
    ∃ ch ∈ w, tok = .lit ch := by
  unfold lits at h
  rcases List.mem_map.mp h with ⟨ch, hch, rfl⟩
  exact ⟨ch, hch, rfl⟩

/-- A newline-free word is a prefix of `l0 ++ t` exactly when it is a prefix
of the first line `l0`, provided `t` is empty or starts with a newline. -/
theorem pfx_firstline {w l0 t : Str} (hw : '\n' ∉ w)
    (ht : t = [] ∨ t.head? = some '\n') :
    pfx w (l0 ++ t) = pfx w l0 := by
  by_cases hlen : w.length ≤ l0.length
  · cases hb : pfx w l0
    · cases hb2 : pfx w (l0 ++ t)
      · rfl
      · have hA : pfx w l0 = true :=
          patAt_of_append (p := lits w) (s := l0) (t := t) hb2
            (by simpa [lits_length] using hlen)
        exact absurd hA (by simp [hb])
    · exact patAt_append_right hb
  · have h1 : pfx w l0 = false := by
      cases hb : pfx w l0
      · rfl
      · exact absurd (pfx_length_le hb) (by omega)
    rw [h1]
    cases hb2 : pfx w (l0 ++ t)
    · rfl
    · exfalso
      have hdrop := patAt_drop_of_append (p := lits w) (s := l0) (t := t) hb2
      cases hld : (lits w).drop l0.length with
      | nil =>
        have := congrArg List.length hld
        simp [lits_length] at this
        omega
      | cons tok toks =>
        have htokmem : tok ∈ lits w := by
          have : tok ∈ (lits w).drop l0.length := by rw [hld]; simp
          exact List.drop_subset _ _ this
        obtain ⟨ch, hch, rfl⟩ := mem_of_lit_mem_lits htokmem
        rcases ht with rfl | hh
        · rw [hld] at hdrop
          simp [patAt] at hdrop
        · cases t with
          | nil => simp at hh
          | cons t0 t' =>
            have ht0 : t0 = '\n' := by simpa using hh
            rw [hld, ht0] at hdrop
            simp only [patAt, tokMatch, Bool.and_eq_true, beq_iff_eq] at hdrop
            exact hw (hdrop.1 ▸ hch)

/-- Offsets of the newline characters opening each later line; `acc` is the
offset of the current line's first character. -/
def lineBoundaryGo (f : Str → Bool) : Nat → List Str → Option Nat
  | _, [] => none
  | acc, l :: ls => if f l then some (acc - 1) else lineBoundaryGo f (acc + l.length + 1) ls

/-- Offset of the newline opening the first later line satisfying `f`. -/
def lineBoundaryOffset (f : Str → Bool) (r : Str) : Option Nat :=
  match splitNl r with
  | [] => none
  | l0 :: ls => lineBoundaryGo f (l0.length + 1) ls

theorem lineBoundaryGo_shift (f : Str → Bool) (ls : List Str) (acc : Nat)
    (h : 1 ≤ acc) :
    lineBoundaryGo f (acc + 1) ls = (lineBoundaryGo f acc ls).map (· + 1) := by
  induction ls generalizing acc with
  | nil => rfl
  | cons l ls2 ih =>
    by_cases hf : f l = true
    · simp only [lineBoundaryGo, if_pos hf, Option.map_some']
      congr 1
      omega
    · simp only [lineBoundaryGo, if_neg hf]
      have := ih (acc + l.length + 1) (by omega)
      convert this using 2
      omega

/-- The code's flat search for `"\n" ++ w` coincides with a line-structured
scan: it finds the newline opening the first later line that begins with `w`. -/
theorem firstIdx_nl_lines {w : Str} (hw : '\n' ∉ w) (r : Str) :
    firstIdxP (pfx ('\n' :: w)) r = lineBoundaryOffset (pfx w) r := by
  induction r with
  | nil =>
    rw [firstIdxP, if_neg (by simp [pfx, lits, patAt])]
    rfl
  | cons c cs ih =>
    by_cases hc : c = '\n'
    · subst hc
      obtain ⟨l0, ls, t, h1, h2, h3, h4⟩ := splitNl_decomp cs
      have hhead : t = [] ∨ t.head? = some '\n' := by
        rcases h3 with ⟨rfl, _⟩ | ⟨t', rfl, _⟩
        · exact Or.inl rfl
        · exact Or.inr rfl
      have hfl : pfx w cs = pfx w l0 := by
        rw [h2]
        exact pfx_firstline hw hhead
      have hlhs : pfx ('\n' :: w) ('\n' :: cs) = pfx w cs := by
        simp [pfx, lits, patAt, tokMatch]
      have hsplit : splitNl ('\n' :: cs) = [] :: l0 :: ls := by
        simp [splitNl, h1]
      by_cases hb : pfx w l0 = true
      · rw [firstIdxP, if_pos (by rw [hlhs, hfl]; exact hb)]
        unfold lineBoundaryOffset
        rw [hsplit]
        simp [lineBoundaryGo, hb]
      · rw [firstIdxP, if_neg (by rw [hlhs, hfl]; simp [hb]), ih]
        unfold lineBoundaryOffset
        rw [hsplit, h1]
        simp only [List.length_nil, Nat.zero_add, lineBoundaryGo, if_neg hb]
        have := lineBoundaryGo_shift (pfx w) ls (l0.length + 1) (by omega)
        have harith : 1 + l0.length + 1 = l0.length + 1 + 1 := by omega
        rw [harith, this]
    · obtain ⟨l0, ls, t, h1, _, _, _⟩ := splitNl_decomp cs
      have hlhs : pfx ('\n' :: w) (c :: cs) = false := by
        simp only [pfx, lits, List.map, patAt, tokMatch, Bool.and_eq_true, beq_iff_eq]
        simp only [Bool.and_eq_false_iff]
        left
        simp only [beq_eq_false_iff_ne, ne_eq]
        exact fun hh => hc hh.symm
      rw [firstIdxP, if_neg (by simp [hlhs]), ih]
      unfold lineBoundaryOffset
      rw [h1]
      have hsplit : splitNl (c :: cs) = (c :: l0) :: ls := by
        unfold splitNl
        rw [if_neg hc, h1]
      rw [hsplit]
      simp only [List.length_cons]
      have := lineBoundaryGo_shift (pfx w) ls (l0.length + 1) (by omega)
      rw [this]

/-- Modelled from the spec (§4.2 `sectionExtent`, the wording of claim C5):
a boundary line consists of 1 up to `L` `#` characters, a space, and then a
non-`#` character. -/
def claimBoundaryLine (L : Nat) (line : Str) : Bool :=
  (List.range L).any (fun h =>
    pfx (List.replicate (h + 1) '#' ++ [' ']) line &&
    (match line.drop (h + 2) with
     | c :: _ => c != '#'
     | [] => false))

/-- Modelled from the spec: the claimed section extent — the newline opening
the first boundary line after `afterIdx`, else the document end. -/
def specSectionExtent (L : Nat) (content : Str) (afterIdx : Nat) : Nat :=
  match lineBoundaryOffset (claimBoundaryLine L) (content.drop afterIdx) with
  | some m => afterIdx + m
  | none => content.length

/-- C5 refuted as stated: in `"## [[2025-01-10]]\n\n- a\n\n# Top\ntext"` with
heading level `##`, the claimed extent ends at the shallower `# Top` line
(offset 23), but the code's boundary search looks only for `"\n## "`, finds
nothing, and extends the section to the document end (offset 34) — the
appended entry lands after `text`, below the `# Top` heading. -/
theorem c5_section_extent_counterexample :
    specSectionExtent 2 (str "## [[2025-01-10]]\n\n- a\n\n# Top\ntext") 17 = 23 ∧
    sectionEndLog (str "##") (str "## [[2025-01-10]]\n\n- a\n\n# Top\ntext") 17 = 34 ∧
    insertEntryToLogLine (str "##") true true
        (str "## [[2025-01-10]]\n\n- a\n\n# Top\ntext") (str "2025-01-10") (str "- b")
      = str "## [[2025-01-10]]\n\n- a\n\n# Top\ntext\n\n- b" := by
  refine ⟨by decide, by decide, by decide⟩

/-- C5 amended: for the primary log, the extent of a date section found
during insertion ends at the start of the next line that begins with exactly
the configured heading-level string followed by a space — shallower and
deeper headings do not end it — or at the document end when no such line
follows. -/
theorem c5_amended_section_extent (lv content : Str) (afterIdx : Nat)
    (hlv : '\n' ∉ lv) :
    sectionEndLog lv content afterIdx =
      match lineBoundaryOffset (pfx (lv ++ [' '])) (content.drop afterIdx) with
      | some m => afterIdx + m
      | none => content.length := by
  unfold sectionEndLog
  rw [firstIdx_nl_lines (w := lv ++ [' '])]
  simp only [List.mem_append, List.mem_singleton, not_or]
  exact ⟨hlv, by decide⟩

/-- Witness for the amended C5 on a document whose date section is followed
by a deeper heading and then a sibling date heading. -/
theorem c5_amended_section_extent_witness :
    sectionEndLog (str "##") (str "## [[2025-01-10]]\n\n### Sub\nx\n## [[2025-01-12]]\n") 17 =
      match lineBoundaryOffset (pfx (str "##" ++ [' ']))
          ((str "## [[2025-01-10]]\n\n### Sub\nx\n## [[2025-01-12]]\n").drop 17) with
      | some m => 17 + m
      | none => (str "## [[2025-01-10]]\n\n### Sub\nx\n## [[2025-01-12]]\n").length :=
  c5_amended_section_extent (str "##") _ 17 (by decide)

/-! ### Facts about the compiled date patterns -/

theorem datePatFor_ne_nil (lv : Str) (asLink : Bool) : datePatFor lv asLink ≠ [] := by
  unfold datePatFor
  cases lits lv <;> simp

/-- Every heading level the settings type admits gives a self-overlap-free
date pattern. -/
theorem datePat_selfOvFree {lv : Str}
    (hlv : lv = str "##" ∨ lv = str "###" ∨ lv = str "####") (asLink : Bool) :
    SelfOvFree (datePatFor lv asLink) := by
  rcases hlv with rfl | rfl | rfl <;> cases asLink <;>
    first
    | exact selfOvFree_of_shape (h := 2) (by decide) (by decide) (by decide) (by decide)
        (by decide) (by decide)
    | exact selfOvFree_of_shape (h := 3) (by decide) (by decide) (by decide) (by decide)
        (by decide) (by decide)
    | exact selfOvFree_of_shape (h := 4) (by decide) (by decide) (by decide) (by decide)
        (by decide) (by decide)

theorem datePat_no_nl {lv : Str} (hlv : '\n' ∉ lv) (asLink : Bool) :
    ∀ t ∈ datePatFor lv asLink, tokMatch t '\n' = false := by
  intro t ht
  unfold datePatFor at ht
  rcases List.mem_append.mp ht with h1 | h2
  · rcases List.mem_append.mp h1 with h1a | h1b
    · obtain ⟨ch, hch, rfl⟩ := mem_of_lit_mem_lits h1a
      simp only [tokMatch, beq_eq_false_iff_ne, ne_eq]
      intro hh
      exact hlv (hh ▸ hch)
    · have hsp : t = .lit ' ' := by simpa using h1b
      subst hsp
      decide
  · cases asLink with
    | true =>
      simp only [if_pos, dateToks] at h2
      fin_cases h2 <;> decide
    | false =>
      simp only [if_neg, dateToks] at h2
      fin_cases h2 <;> decide

theorem datePat_head {lv : Str} (hlv : lv = str "##" ∨ lv = str "###" ∨ lv = str "####")
    (asLink : Bool) :
    ∃ ts, datePatFor lv asLink = .lit '#' :: ts := by
  rcases hlv with rfl | rfl | rfl <;> exact ⟨_, rfl⟩

/-- The four ASCII whitespace characters of the model. -/
theorem ws_cases {c : Char} (h : isWsJs c = true) :
    c = ' ' ∨ c = '\t' ∨ c = '\n' ∨ c = '\r' := by
  simp only [isWsJs, Bool.or_eq_true, beq_iff_eq] at h
  tauto

theorem getLast?_append_right {α : Type} (a : List α) {b : List α} (hb : b ≠ []) :
    (a ++ b).getLast? = b.getLast? := by
  induction a with
  | nil => rfl
  | cons c cs ih =>
    have hne : cs ++ b ≠ [] := by
      intro hh
      rcases List.append_eq_nil.mp hh with ⟨_, h2⟩
      exact hb h2
    obtain ⟨d, ds, hds⟩ := List.exists_cons_of_ne_nil hne
    rw [List.cons_append, hds, List.getLast?_cons_cons, ← hds, ih]

theorem datePat_last (lv : Str) (asLink : Bool) :
    ∃ tl, (datePatFor lv asLink).getLast? = some tl ∧
      ∀ c, isWsJs c = true → tokMatch tl c = false := by
  cases asLink with
  | true =>
    refine ⟨.lit ']', ?_, ?_⟩
    · show ((lits lv ++ [PTok.lit ' ']) ++
        ([PTok.lit '[', PTok.lit '['] ++ dateToks ++
          [PTok.lit ']', PTok.lit ']'])).getLast? = some (PTok.lit ']')
      rw [getLast?_append_right _ (by decide)]
      decide
    · intro c hc
      rcases ws_cases hc with rfl | rfl | rfl | rfl <;> decide
  | false =>
    refine ⟨.digit, ?_, ?_⟩
    · show ((lits lv ++ [PTok.lit ' ']) ++ dateToks).getLast? = some PTok.digit
      rw [getLast?_append_right _ (by decide)]
      decide
    · intro c hc
      rcases ws_cases hc with rfl | rfl | rfl | rfl <;> decide

theorem datePat_capOff (lv : Str) (asLink : Bool) :
    capOff lv asLink + 10 ≤ (datePatFor lv asLink).length := by
  cases asLink <;> simp [capOff, datePatFor, dateToks, lits]

/-- Character at an offset landing in the right half of an append. -/
theorem getD_append_right {α : Type} (a b : List α) (j : Nat) (d : α) :
    (a ++ b).getD (a.length + j) d = b.getD j d := by
  induction a with
  | nil => simp
  | cons c cs ih =>
    have harr : (c :: cs).length + j = (cs.length + j) + 1 := by
      simp only [List.length_cons]
      omega
    rw [List.cons_append, harr, List.getD_cons_succ, ih]

/-- Occurrences never reach into an all-whitespace suffix when the last
pattern token rejects whitespace. -/
theorem noCross_of_last_tok_ws {p : List PTok} {tl : PTok}
    (hlast : p.getLast? = some tl)
    (htl : ∀ c, isWsJs c = true → tokMatch tl c = false)
    {t w : Str} (hw : ∀ c ∈ w, isWsJs c = true) :
    ∀ i, i < t.length → occursAt p (t ++ w) i → i + p.length ≤ t.length := by
  intro i hi hocc
  by_contra hlt
  push_neg at hlt
  unfold occursAt at hocc
  have hplen : 0 < p.length := by omega
  have hbound : i + p.length ≤ t.length + w.length := by
    have := patAt_length_le hocc
    simp only [List.length_drop, List.length_append] at this
    omega
  have hkk : p.length - 1 < p.length := by omega
  have hmatch := patAt_getD hocc hkk
  rw [getD_drop] at hmatch
  have hptl : p.getD (p.length - 1) (.lit '#') = tl := getD_getLast hlast _
  rw [hptl] at hmatch
  -- the character under the last token lies in `w`
  have hj : i + (p.length - 1) = t.length + (i + p.length - 1 - t.length) := by omega
  rw [hj, getD_append_right] at hmatch
  have hjw : i + p.length - 1 - t.length < w.length := by omega
  have hcw : (w.getD (i + p.length - 1 - t.length) ' ') ∈ w := getD_mem hjw _
  rw [htl _ (hw _ hcw)] at hmatch
  exact absurd hmatch (by simp)

/-! ### Date sequences of occurrence lists -/

/-- Dates captured at the occurrences, in order. -/
def datesOfOcc (p : List PTok) (off : Nat) (s : Str) : List Str :=
  (occList p s).map (dateAtPos off s)

theorem headingDates_eq_datesOfOcc {lv : Str} {asLink : Bool}
    (hov : SelfOvFree (datePatFor lv asLink)) (s : Str) :
    headingDates lv asLink s = datesOfOcc (datePatFor lv asLink) (capOff lv asLink) s := by
  unfold headingDates datesOfOcc
  rw [scanPat_eq_occList hov]

theorem datesOfOcc_append {p : List PTok} {off : Nat} (hoff : off + 10 ≤ p.length)
    {a b : Str}
    (hnc : ∀ i, i < a.length → occursAt p (a ++ b) i → i + p.length ≤ a.length) :
    datesOfOcc p off (a ++ b) = datesOfOcc p off a ++ datesOfOcc p off b := by
  unfold datesOfOcc
  rw [occList_append hnc, List.map_append]
  congr 1
  · apply List.map_congr_left
    intro i hi
    have hb := occList_bound hi
    unfold dateAtPos
    rw [List.drop_append_of_le_length (by omega)]
    rw [List.take_append_of_le_length (by simp; omega)]
  · rw [List.map_map]
    apply List.map_congr_left
    intro i hi
    unfold dateAtPos
    simp only [Function.comp]
    have harr : i + a.length + off = a.length + (i + off) := by omega
    rw [harr, List.drop_append]

/-- A piece of pure whitespace holds no date-heading occurrence. -/
theorem datesOfOcc_ws_nil {p : List PTok} {t0 : PTok} {ts : List PTok}
    (hp : p = t0 :: ts) (h0 : ∀ c, isWsJs c = true → tokMatch t0 c = false)
    {w : Str} (hw : ∀ c ∈ w, isWsJs c = true) (off : Nat) :
    datesOfOcc p off w = [] := by
  unfold datesOfOcc
  rw [hp, occList_eq_nil_of_head (fun c hc => h0 c (hw c hc))]
  rfl

/-- Trimming trailing whitespace changes no date-heading occurrence. -/
theorem datesOfOcc_trimEnd {p : List PTok} {tl : PTok} {t0 : PTok} {ts : List PTok}
    (hp : p = t0 :: ts) (h0 : ∀ c, isWsJs c = true → tokMatch t0 c = false)
    (hlast : p.getLast? = some tl)
    (htl : ∀ c, isWsJs c = true → tokMatch tl c = false)
    {off : Nat} (hoff : off + 10 ≤ p.length) (x : Str) :
    datesOfOcc p off (trimEnd x) = datesOfOcc p off x := by
  conv_rhs => rw [trimEnd_append_ws x]
  rw [datesOfOcc_append hoff (noCross_of_last_tok_ws hlast htl (trimEnd_ws_all x))]
  rw [datesOfOcc_ws_nil hp h0 (trimEnd_ws_all x), List.append_nil]

/-! ### Characterising the exec loop's break position -/

theorem find?_sorted_eq_some {l : List Nat} {f : Nat → Bool} {q : Nat}
    (hs : l.Pairwise (· < ·)) (hq : q ∈ l) (hfq : f q = true)
    (hmin : ∀ j ∈ l, j < q → f j = false) :
    l.find? f = some q := by
  induction l with
  | nil => simp at hq
  | cons x xs ih =>
    rcases List.mem_cons.mp hq with rfl | hq2
    · exact List.find?_cons_of_pos _ hfq
    · have hxq : x < q := (List.pairwise_cons.mp hs).1 q hq2
      have hfx : f x = false := hmin x (by simp) hxq
      rw [List.find?_cons_of_neg _ (by simp [hfx])]
      exact ih (List.pairwise_cons.mp hs).2 hq2
        (fun j hj hjq => hmin j (List.mem_cons_of_mem _ hj) hjq)

theorem occList_pairwise (p : List PTok) (s : Str) :
    (occList p s).Pairwise (· < ·) :=
  List.chain'_iff_pairwise.mp (occList_sorted p s)

/-- The break position of the ascending-insert loop: the first occurrence of
the date pattern whose captured date exceeds the target. -/
theorem firstGreaterPos_eq_some {lv : Str} {asLink : Bool}
    (hov : SelfOvFree (datePatFor lv asLink)) {target s : Str} {q : Nat}
    (hq : occursAt (datePatFor lv asLink) s q)
    (hfq : lexLt target (dateAtPos (capOff lv asLink) s q) = true)
    (hmin : ∀ j, j < q → occursAt (datePatFor lv asLink) s j →
      lexLt target (dateAtPos (capOff lv asLink) s j) = false) :
    firstGreaterPos lv asLink target s = some q := by
  unfold firstGreaterPos
  rw [scanPat_eq_occList hov]
  apply find?_sorted_eq_some (occList_pairwise _ _)
    ((mem_occList (datePatFor_ne_nil lv asLink)).mpr hq) hfq
  intro j hj hjq
  exact hmin j hjq ((mem_occList (datePatFor_ne_nil lv asLink)).mp hj)

/-- The loop finds nothing when no occurrence has a greater date. -/
theorem firstGreaterPos_eq_none {lv : Str} {asLink : Bool}
    (hov : SelfOvFree (datePatFor lv asLink)) {target s : Str}
    (hall : ∀ j, occursAt (datePatFor lv asLink) s j →
      lexLt target (dateAtPos (capOff lv asLink) s j) = false) :
    firstGreaterPos lv asLink target s = none := by
  unfold firstGreaterPos
  rw [scanPat_eq_occList hov, List.find?_eq_none]
  intro j hj
  simp [hall j ((mem_occList (datePatFor_ne_nil lv asLink)).mp hj)]

/-! ### C6: where a brand-new date section is inserted -/

/-- Helper for discharging quantified occurrence hypotheses at concrete
inputs: checking the (finite) occurrence list suffices. -/
theorem all_occurrences_check {p : List PTok} (hp : p ≠ []) {s : Str} {f : Nat → Bool}
    (h : (occList p s).all f = true) :
    ∀ j, occursAt p s j → f j = true := by
  intro j hocc
  exact List.all_eq_true.mp h j ((mem_occList hp).mpr hocc)

/-- C6 refuted as stated: a related-note insertion with an absent date
subsection writes the new date heading directly followed by the entry line —
no blank line separates them, unlike the primary-log path. -/
theorem c6_related_note_no_blank_line :
    insertEntryToRelatedNoteLine (str "## Notes") (str "###") true
        (str "## Notes\n\n### [[2025-01-10]]\n- x\n") (str "2025-03-03") (str "did things")
      = str "## Notes\n\n### [[2025-01-10]]\n- x\n### [[2025-03-03]]\ndid things\n" ∧
    containsSub (str "### [[2025-03-03]]\n\ndid things")
        (insertEntryToRelatedNoteLine (str "## Notes") (str "###") true
          (str "## Notes\n\n### [[2025-01-10]]\n- x\n") (str "2025-03-03") (str "did things"))
      = false := by
  refine ⟨by decide, by decide⟩

/-- C6 amended: with the exact date heading absent, the primary-log path
inserts `heading ++ blank line ++ entry ++ newline` (plus a separating
newline) immediately before the first date-heading occurrence whose date is
lexicographically greater, and appends it at the trimmed document end when
none is greater; the related-note path behaves the same within the notes
section, except the new subsection has no blank line after its heading and
the text before the insertion point is trimmed of trailing whitespace. -/
theorem c6_new_section_insertion (lv : Str) (asLink blank : Bool)
    (content date entryLine : Str)
    (hlv : lv = str "##" ∨ lv = str "###" ∨ lv = str "####") :
    ((firstIdxP (pfx (buildDateHeadingLog lv asLink date)) content = none) →
      (∀ q, occursAt (datePatFor lv asLink) content q →
        lexLt date (dateAtPos (capOff lv asLink) content q) = true →
        (∀ j, j < q → occursAt (datePatFor lv asLink) content j →
          lexLt date (dateAtPos (capOff lv asLink) content j) = false) →
        insertEntryToLogLine lv asLink blank content date entryLine
          = content.take q ++ (buildDateHeadingLog lv asLink date ++ str "\n\n" ++
              entryLine ++ str "\n") ++ str "\n" ++ content.drop q) ∧
      ((∀ j, occursAt (datePatFor lv asLink) content j →
          lexLt date (dateAtPos (capOff lv asLink) content j) = false) →
        insertEntryToLogLine lv asLink blank content date entryLine
          = trimEnd content ++ str "\n\n" ++ (buildDateHeadingLog lv asLink date ++
              str "\n\n" ++ entryLine ++ str "\n"))) ∧
    (∀ secH ns ml, notesSecFind secH content = some (ns, ml) →
      firstIdxP (pfx (buildDateHeadingRel lv date))
          ((content.take (notesSectionEndOf content ns ml)).drop ns) = none →
      (∀ q, occursAt (datePatFor lv true)
            ((content.take (notesSectionEndOf content ns ml)).drop ns) q →
        lexLt date (dateAtPos (capOff lv true)
            ((content.take (notesSectionEndOf content ns ml)).drop ns) q) = true →
        (∀ j, j < q → occursAt (datePatFor lv true)
              ((content.take (notesSectionEndOf content ns ml)).drop ns) j →
          lexLt date (dateAtPos (capOff lv true)
              ((content.take (notesSectionEndOf content ns ml)).drop ns) j) = false) →
        insertEntryToRelatedNoteLine secH lv blank content date entryLine
          = trimEnd (content.take (ns + q)) ++ str "\n" ++
              (buildDateHeadingRel lv date ++ str "\n" ++ entryLine ++ str "\n") ++
              content.drop (ns + q)) ∧
      ((∀ j, occursAt (datePatFor lv true)
              ((content.take (notesSectionEndOf content ns ml)).drop ns) j →
          lexLt date (dateAtPos (capOff lv true)
              ((content.take (notesSectionEndOf content ns ml)).drop ns) j) = false) →
        insertEntryToRelatedNoteLine secH lv blank content date entryLine
          = trimEnd (content.take (notesSectionEndOf content ns ml)) ++ str "\n" ++
              (buildDateHeadingRel lv date ++ str "\n" ++ entryLine ++ str "\n") ++
              content.drop (notesSectionEndOf content ns ml))) := by
  constructor
  · intro hH
    constructor
    · intro q hq hgt hmin
      simp only [insertEntryToLogLine, hH,
        firstGreaterPos_eq_some (datePat_selfOvFree hlv asLink) hq hgt hmin]
    · intro hall
      simp only [insertEntryToLogLine, hH,
        firstGreaterPos_eq_none (datePat_selfOvFree hlv asLink) hall]
  · intro secH ns ml hsec hdH
    constructor
    · intro q hq hgt hmin
      simp only [insertEntryToRelatedNoteLine, hsec, hdH,
        firstGreaterPos_eq_some (datePat_selfOvFree hlv true) hq hgt hmin]
    · intro hall
      simp only [insertEntryToRelatedNoteLine, hsec, hdH,
        firstGreaterPos_eq_none (datePat_selfOvFree hlv true) hall]

/-- Witness for the amended C6: appending a brand-new latest date section to
the primary log. -/
theorem c6_new_section_insertion_witness :
    insertEntryToLogLine (str "##") true true (str "## [[2025-01-02]]\n\n- a\n")
        (str "2025-01-05") (str "- b")
      = trimEnd (str "## [[2025-01-02]]\n\n- a\n") ++ str "\n\n" ++
          (buildDateHeadingLog (str "##") true (str "2025-01-05") ++ str "\n\n" ++
            str "- b" ++ str "\n") :=
  ((c6_new_section_insertion (str "##") true true (str "## [[2025-01-02]]\n\n- a\n")
      (str "2025-01-05") (str "- b") (Or.inl rfl)).1 (by decide)).2
    (fun j hocc => by
      have hch := all_occurrences_check (p := datePatFor (str "##") true)
        (by decide) (s := str "## [[2025-01-02]]\n\n- a\n")
        (f := fun k => !lexLt (str "2025-01-05")
          (dateAtPos (capOff (str "##") true) (str "## [[2025-01-02]]\n\n- a\n") k))
        (by decide) j hocc
      simpa using hch)

/-! ### Lemmas for literal heading occurrences (claim C4) -/

/-- A piece missing the character that a literal token of the pattern
demands holds no occurrence at all. -/
theorem occList_nil_of_no_char {p : List PTok} {k : Nat} {ch : Char}
    (hk : p.getD k (.lit '#') = .lit ch) (hklen : k < p.length)
    {a : Str} (hch : ch ∉ a) : occList p a = [] := by
  rw [List.eq_nil_iff_forall_not_mem]
  intro j hj
  have hp : p ≠ [] := by
    intro hh
    rw [hh] at hklen
    simp at hklen
  have hocc := (mem_occList hp).mp hj
  have hb := occList_bound hj
  unfold occursAt at hocc
  have hmatch := patAt_getD hocc hklen
  rw [getD_drop, hk] at hmatch
  simp only [tokMatch, beq_iff_eq] at hmatch
  have hjk : j + k < a.length := by omega
  exact hch (hmatch ▸ getD_mem hjk ' ')

theorem pfx_head_nl {w s : Str} (h : pfx ('\n' :: w) s = true) :
    s.head? = some '\n' := by
  cases s with
  | nil => simp [pfx, lits, patAt] at h
  | cons c cs =>
    simp only [pfx, lits, List.map, patAt, tokMatch, Bool.and_eq_true, beq_iff_eq] at h
    simp [← h.1]

theorem sep_head (blank : Bool) : (sepFor blank).head? = some '\n' := by
  cases blank <;> rfl

theorem sep_ne (blank : Bool) : sepFor blank ≠ [] := by
  cases blank <;> decide

/-- Occurrence in a prefix extends over any continuation. -/
theorem patAt_drop_extend {p : List PTok} {a b : Str} {j : Nat}
    (h : patAt p (a.drop j) = true) (hj : j ≤ a.length) :
    patAt p ((a ++ b).drop j) = true := by
  rw [List.drop_append_of_le_length hj]
  exact patAt_append_right h

theorem head?_append_left {α : Type} {a : List α} (b : List α) (h : a ≠ []) :
    (a ++ b).head? = a.head? := by
  cases a with
  | nil => exact absurd rfl h
  | cons c cs => rfl

/-- No match of a pattern demanding a character absent from the haystack. -/
theorem no_occ_in_no_char {p : List PTok} {k : Nat} {ch : Char}
    (hk : p.getD k (.lit '#') = .lit ch) (hklen : k < p.length)
    {a : Str} (hch : ch ∉ a) (j : Nat) : patAt p (a.drop j) = false := by
  cases hx : patAt p (a.drop j)
  · rfl
  · exfalso
    have hnil := occList_nil_of_no_char hk hklen hch
    have hp : p ≠ [] := by
      intro hh
      rw [hh] at hklen
      simp at hklen
    have hmem : j ∈ occList p a := (mem_occList hp).mpr hx
    rw [hnil] at hmem
    simp at hmem

/-- Bounds, seam shape, and minimality of the primary-log section end. -/
theorem sectionEndLog_spec {lv content : Str} {a : Nat} (ha : a ≤ content.length) :
    a ≤ sectionEndLog lv content a ∧ sectionEndLog lv content a ≤ content.length ∧
    (content.drop (sectionEndLog lv content a) = [] ∨
      pfx ('\n' :: (lv ++ [' '])) (content.drop (sectionEndLog lv content a)) = true) ∧
    (∀ j, a ≤ j → j < sectionEndLog lv content a →
      pfx ('\n' :: (lv ++ [' '])) (content.drop j) = false) := by
  unfold sectionEndLog
  cases hse : firstIdxP (pfx ('\n' :: (lv ++ [' ']))) (content.drop a) with
  | none =>
    dsimp only
    refine ⟨ha, le_refl _, Or.inl (by simp), ?_⟩
    intro j hj1 hj2
    have hgen := firstIdxP_none hse (j - a)
    rwa [List.drop_drop, show a + (j - a) = j by omega] at hgen
  | some m =>
    dsimp only
    obtain ⟨h1, h2⟩ := firstIdxP_some hse
    rw [List.drop_drop] at h1
    have hlen : a + m + ('\n' :: (lv ++ [' '])).length ≤ content.length := by
      have hl := pfx_length_le h1
      simp only [List.length_drop] at hl
      by_cases hc : a + m ≤ content.length
      · omega
      · exfalso
        have hnil : content.drop (a + m) = [] := List.drop_eq_nil_of_le (by omega)
        rw [hnil] at h1
        simp [pfx, lits, patAt] at h1
    refine ⟨by omega, by simp at hlen; omega, Or.inr h1, ?_⟩
    intro j hj1 hj2
    have hgen := h2 (j - a) (by omega)
    rwa [List.drop_drop, show a + (j - a) = j by omega] at hgen

/-- Non-decreasing (by the code's lexicographic comparison) date list. -/
def ascB : List Str → Bool
  | [] => true
  | [_] => true
  | a :: b :: rest => lexLe a b && ascB (b :: rest)

theorem ascB_append_last {l : List Str} {x : Str} (hl : ascB l = true)
    (hx : ∀ d ∈ l, lexLe d x = true) : ascB (l ++ [x]) = true := by
  induction l with
  | nil => rfl
  | cons a as ih =>
    cases as with
    | nil =>
      simp only [List.cons_append, List.nil_append, ascB, Bool.and_eq_true]
      exact ⟨hx a (by simp), trivial⟩
    | cons b bs =>
      simp only [ascB, Bool.and_eq_true] at hl
      have htail := ih hl.2 (fun d hd => hx d (List.mem_cons_of_mem _ hd))
      show ascB (a :: b :: (bs ++ [x])) = true
      simp only [ascB, Bool.and_eq_true]
      exact ⟨hl.1, htail⟩

theorem ascB_insert_mid {D1 D2 : List Str} {x d2 : Str}
    (h : ascB (D1 ++ d2 :: D2) = true)
    (h1 : ∀ d ∈ D1, lexLe d x = true) (h2 : lexLe x d2 = true) :
    ascB (D1 ++ x :: d2 :: D2) = true := by
  induction D1 with
  | nil =>
    simp only [List.nil_append] at h ⊢
    simp only [ascB, Bool.and_eq_true]
    exact ⟨h2, h⟩
  | cons a as ih =>
    cases as with
    | nil =>
      simp only [List.nil_append, List.cons_append] at h ⊢
      simp only [ascB, Bool.and_eq_true] at h ⊢
      exact ⟨h1 a (by simp), h2, h.2⟩
    | cons b bs =>
      simp only [List.cons_append] at h ⊢
      simp only [ascB, Bool.and_eq_true] at h ⊢
      refine ⟨h.1, ?_⟩
      exact ih h.2 (fun d hd => h1 d (List.mem_cons_of_mem _ hd))

/-- An occurrence that starts inside `a` cannot overlap the occurrence at the
start of `b` when the pattern is self-overlap-free. -/
theorem noCross_of_later_occ {p : List PTok} (hov : SelfOvFree p) {a b : Str}
    (hb : patAt p b = true) :
    ∀ i, i < a.length → occursAt p (a ++ b) i → i + p.length ≤ a.length := by
  intro i hi hocc
  have hocc2 : occursAt p (a ++ b) a.length := by
    unfold occursAt
    rw [List.drop_left]
    exact hb
  exact hov (a ++ b) i a.length hocc hocc2 hi

theorem occursAt_bound {p : List PTok} (hp : p ≠ []) {s : Str} {i : Nat}
    (h : occursAt p s i) : i + p.length ≤ s.length := by
  have h' : patAt p (s.drop i) = true := h
  have hl := patAt_length_le h'
  simp only [List.length_drop] at hl
  by_cases hc : i ≤ s.length
  · have hpos : 0 < p.length := List.length_pos.mpr hp
    omega
  · exfalso
    push_neg at hc
    have hnil : s.drop i = [] := List.drop_eq_nil_of_le (by omega)
    rw [hnil] at h'
    cases p with
    | nil => exact hp rfl
    | cons t ts => simp [patAt] at h'

theorem find?_sorted_some_elim {l : List Nat} {f : Nat → Bool} {q : Nat}
    (hs : l.Pairwise (· < ·)) (h : l.find? f = some q) :
    ∀ j ∈ l, j < q → f j = false := by
  induction l with
  | nil => simp
  | cons x xs ih =>
    intro j hj hjq
    cases hfx : f x with
    | true =>
      rw [List.find?_cons_of_pos _ hfx] at h
      have hqx : x = q := by
        cases h
        rfl
      rcases List.mem_cons.mp hj with rfl | hj2
      · exact absurd hjq (by omega)
      · have := (List.pairwise_cons.mp hs).1 j hj2
        exact absurd hjq (by omega)
    | false =>
      rw [List.find?_cons_of_neg _ (by simp [hfx])] at h
      rcases List.mem_cons.mp hj with rfl | hj2
      · exact hfx
      · exact ih (List.pairwise_cons.mp hs).2 h j hj2 hjq

theorem firstGreaterPos_some_elim {lv : Str} {asLink : Bool}
    (hov : SelfOvFree (datePatFor lv asLink)) {target s : Str} {q : Nat}
    (h : firstGreaterPos lv asLink target s = some q) :
    occursAt (datePatFor lv asLink) s q ∧
    lexLt target (dateAtPos (capOff lv asLink) s q) = true ∧
    ∀ j, j < q → occursAt (datePatFor lv asLink) s j →
      lexLt target (dateAtPos (capOff lv asLink) s j) = false := by
  unfold firstGreaterPos at h
  rw [scanPat_eq_occList hov] at h
  have hfq := List.find?_some h
  have hqmem := List.mem_of_find?_eq_some h
  refine ⟨(mem_occList (datePatFor_ne_nil lv asLink)).mp hqmem, hfq, ?_⟩
  intro j hj hjocc
  exact find?_sorted_some_elim (occList_pairwise _ _) h j
    ((mem_occList (datePatFor_ne_nil lv asLink)).mpr hjocc) hj

theorem firstGreaterPos_none_elim {lv : Str} {asLink : Bool}
    (hov : SelfOvFree (datePatFor lv asLink)) {target s : Str}
    (h : firstGreaterPos lv asLink target s = none) :
    ∀ j, occursAt (datePatFor lv asLink) s j →
      lexLt target (dateAtPos (capOff lv asLink) s j) = false := by
  unfold firstGreaterPos at h
  rw [scanPat_eq_occList hov] at h
  intro j hj
  have := List.find?_eq_none.mp h j
    ((mem_occList (datePatFor_ne_nil lv asLink)).mpr hj)
  simpa using this

theorem pairwise_all_eq_singleton {l : List Nat} {a : Nat}
    (hs : l.Pairwise (· < ·)) (ha : a ∈ l) (hall : ∀ x ∈ l, x = a) : l = [a] := by
  cases l with
  | nil => simp at ha
  | cons x xs =>
    have hx : x = a := hall x (by simp)
    subst hx
    cases xs with
    | nil => rfl
    | cons y ys =>
      have hy : y = x := hall y (by simp)
      have := (List.pairwise_cons.mp hs).1 y (by simp)
      omega

theorem occList_head_zero {p : List PTok} (hp : p ≠ []) {s : Str}
    (h : occursAt p s 0) : ∃ t, occList p s = 0 :: t := by
  have h0 : 0 ∈ occList p s := (mem_occList hp).mpr h
  cases hl : occList p s with
  | nil =>
    rw [hl] at h0
    simp at h0
  | cons x xs =>
    rw [hl] at h0
    rcases List.mem_cons.mp h0 with rfl | hx
    · exact ⟨xs, rfl⟩
    · have hsrt := occList_pairwise p s
      rw [hl] at hsrt
      have := (List.pairwise_cons.mp hsrt).1 0 hx
      omega

theorem dateAtPos_drop (off : Nat) (s : Str) (i j : Nat) :
    dateAtPos off (s.drop i) j = dateAtPos off s (i + j) := by
  unfold dateAtPos
  rw [List.drop_drop, show i + (j + off) = i + j + off from by omega]

theorem dateAtPos_take {off : Nat} (s : Str) {n i : Nat} (h : i + off + 10 ≤ n) :
    dateAtPos off (s.take n) i = dateAtPos off s i := by
  unfold dateAtPos
  rw [List.drop_take, List.take_take]
  congr 1
  omega

/-- No whitespace character passes the leading hash of a date pattern. -/
theorem tokHash_ws : ∀ c, isWsJs c = true → tokMatch (PTok.lit '#') c = false := by
  intro c hc
  rcases ws_cases hc with rfl | rfl | rfl | rfl <;> decide

theorem buildDateHeadingLog_ne_nil {lv : Str} (hlv : lv ≠ []) (asLink : Bool)
    (date : Str) : buildDateHeadingLog lv asLink date ≠ [] := by
  intro hh
  unfold buildDateHeadingLog at hh
  cases asLink with
  | true =>
    rw [if_pos rfl] at hh
    simp only [List.append_eq_nil] at hh
    exact hlv hh.1.1.1
  | false =>
    rw [if_neg (by simp)] at hh
    simp only [List.append_eq_nil] at hh
    exact hlv hh.1.1

theorem wellFormedDate_len10 {d : Str} (h : wellFormedDate d = true) :
    d.length = 10 := by
  unfold wellFormedDate at h
  simp only [Bool.and_eq_true, beq_iff_eq] at h
  exact h.1

/-- The compiled date pattern matches the heading the code builds for a
well-formed date, whatever follows it. -/
theorem patAt_datePat_built {lv date : Str} (hdate : wellFormedDate date = true)
    (asLink : Bool) (rest : Str) :
    patAt (datePatFor lv asLink) (buildDateHeadingLog lv asLink date ++ rest) = true := by
  have hd10 : date.length = 10 := wellFormedDate_len10 hdate
  have hdp : patAt dateToks date = true := by
    unfold wellFormedDate at hdate
    simp only [Bool.and_eq_true] at hdate
    exact hdate.2
  cases asLink with
  | true =>
    have hshape : datePatFor lv true
        = lits lv ++ ((lits (str " [[") ++ dateToks) ++ lits (str "]]")) := by
      unfold datePatFor
      rw [if_pos rfl]
      simp only [List.append_assoc]
      rfl
    have hstr : buildDateHeadingLog lv true date ++ rest
        = lv ++ (((str " [[" ++ date) ++ (str "]]" ++ rest))) := by
      unfold buildDateHeadingLog
      rw [if_pos rfl]
      simp [List.append_assoc]
    rw [hshape, hstr]
    apply patAt_append_pat (patAt_lits_self lv) (lits_length lv)
    rw [show str " [[" ++ date = (str " [[" ++ date) from rfl]
    apply patAt_append_pat
    · exact patAt_append_pat (patAt_lits_self _) (lits_length _) hdp
    · simp only [List.length_append, lits_length]
      rw [hd10]
      rfl
    · exact patAt_append_right (patAt_lits_self _)
  | false =>
    have hshape : datePatFor lv false = lits lv ++ (lits (str " ") ++ dateToks) := by
      unfold datePatFor
      rw [if_neg (by simp)]
      simp only [List.append_assoc]
      rfl
    have hstr : buildDateHeadingLog lv false date ++ rest
        = lv ++ (str " " ++ (date ++ rest)) := by
      unfold buildDateHeadingLog
      rw [if_neg (by simp)]
      simp [List.append_assoc]
    rw [hshape, hstr]
    apply patAt_append_pat (patAt_lits_self lv) (lits_length lv)
    apply patAt_append_pat (patAt_lits_self _) (lits_length _)
    exact patAt_append_right hdp

/-- Pattern and built heading have the same length. -/
theorem datePat_length_built {lv date : Str} (hdate : wellFormedDate date = true)
    (asLink : Bool) :
    (datePatFor lv asLink).length = (buildDateHeadingLog lv asLink date).length := by
  have hd10 : date.length = 10 := wellFormedDate_len10 hdate
  cases asLink with
  | true =>
    unfold datePatFor buildDateHeadingLog
    rw [if_pos rfl, if_pos rfl]
    simp [lits, dateToks, hd10, str]
  | false =>
    unfold datePatFor buildDateHeadingLog
    rw [if_neg (by simp), if_neg (by simp)]
    simp [lits, dateToks, hd10, str]

/-- The built heading followed by hash-free text holds exactly one
occurrence of the date pattern, at its start. -/
theorem occList_built {lv date : Str}
    (hlv : lv = str "##" ∨ lv = str "###" ∨ lv = str "####")
    (hdate : wellFormedDate date = true) (asLink : Bool) {rest : Str}
    (hrest : '#' ∉ rest) :
    occList (datePatFor lv asLink)
      (buildDateHeadingLog lv asLink date ++ rest) = [0] := by
  have hov := datePat_selfOvFree hlv asLink
  have hpne := datePatFor_ne_nil lv asLink
  obtain ⟨pts, hpts⟩ := datePat_head hlv asLink
  have h0occ : occursAt (datePatFor lv asLink)
      (buildDateHeadingLog lv asLink date ++ rest) 0 := by
    unfold occursAt
    rw [List.drop_zero]
    exact patAt_datePat_built hdate asLink rest
  apply pairwise_all_eq_singleton (occList_pairwise _ _)
    ((mem_occList hpne).mpr h0occ)
  intro i hi
  by_contra hne
  have hiocc := (mem_occList hpne).mp hi
  have hipos : 0 < i := by omega
  have hge := hov _ 0 i h0occ hiocc hipos
  rw [datePat_length_built hdate asLink] at hge
  simp only [Nat.zero_add] at hge
  -- the occurrence starts inside the hash-free tail
  have hb := occList_bound hi
  have hchar := patAt_getD (p := datePatFor lv asLink) (k := 0) hiocc (by
    rw [hpts]
    simp)
  rw [getD_drop] at hchar
  rw [show (datePatFor lv asLink).getD 0 (.lit '#') = .lit '#' from by
    rw [hpts]
    rfl] at hchar
  simp only [tokMatch, beq_iff_eq, Nat.add_zero] at hchar
  have hlen : 0 < (datePatFor lv asLink).length := List.length_pos.mpr hpne
  have hrw : (buildDateHeadingLog lv asLink date ++ rest).getD i ' '
      = rest.getD (i - (buildDateHeadingLog lv asLink date).length) ' ' := by
    rw [show i = (buildDateHeadingLog lv asLink date).length
        + (i - (buildDateHeadingLog lv asLink date).length) from by omega]
    rw [getD_append_right]
    congr 1
    omega
  rw [hrw] at hchar
  apply hrest
  rw [hchar]
  apply getD_mem
  simp only [List.length_append] at hb
  omega

/-- The date captured at the start of a built heading is the argument date. -/
theorem dateAt_built {lv date : Str} (hdate : wellFormedDate date = true)
    (asLink : Bool) (rest : Str) :
    dateAtPos (capOff lv asLink) (buildDateHeadingLog lv asLink date ++ rest) 0
      = date := by
  have hd10 : date.length = 10 := wellFormedDate_len10 hdate
  unfold dateAtPos capOff buildDateHeadingLog
  cases asLink with
  | true =>
    rw [if_pos rfl, if_pos rfl]
    rw [Nat.zero_add]
    rw [show (lv ++ str " [[" ++ date ++ str "]]") ++ rest
        = (lv ++ str " [[") ++ (date ++ (str "]]" ++ rest)) from by
      simp [List.append_assoc]]
    have h3 : (str " [[").length = 3 := rfl
    rw [show lv.length + 1 + 2 = (lv ++ str " [[").length from by
      simp only [List.length_append, h3]]
    rw [List.drop_left]
    rw [← hd10, List.take_left]
  | false =>
    rw [if_neg (by simp), if_neg (by simp)]
    rw [Nat.zero_add]
    rw [show (lv ++ str " " ++ date) ++ rest
        = (lv ++ str " ") ++ (date ++ rest) from by simp [List.append_assoc]]
    have h1 : (str " ").length = 1 := rfl
    rw [show lv.length + 1 + 0 = (lv ++ str " ").length from by
      simp only [List.length_append, h1]]
    rw [List.drop_left]
    rw [← hd10, List.take_left]

/-- The scanned dates of a freshly built section block. -/
theorem datesOfOcc_newSection {lv date entryLine : Str}
    (hlv : lv = str "##" ∨ lv = str "###" ∨ lv = str "####")
    (hdate : wellFormedDate date = true) (asLink : Bool) (hline : '#' ∉ entryLine) :
    datesOfOcc (datePatFor lv asLink) (capOff lv asLink)
      (buildDateHeadingLog lv asLink date ++ (str "\n\n" ++ (entryLine ++ str "\n")))
      = [date] := by
  have hh : '#' ∉ str "\n\n" ++ (entryLine ++ str "\n") := by
    intro hmem
    rcases List.mem_append.mp hmem with h | h
    · revert h
      decide
    · rcases List.mem_append.mp h with h | h
      · exact hline h
      · revert h
        decide
  unfold datesOfOcc
  rw [occList_built hlv hdate asLink hh]
  simp only [List.map_cons, List.map_nil]
  rw [dateAt_built hdate]

/-- One primary-log insertion keeps the left-to-right heading-date scan
non-decreasing. -/
theorem insertLog_step_asc (lv : Str) (asLink blank : Bool)
    (content date entryLine : Str)
    (hlv : lv = str "##" ∨ lv = str "###" ∨ lv = str "####")
    (hdate : wellFormedDate date = true)
    (hline : '#' ∉ entryLine)
    (hasc : ascB (headingDates lv asLink content) = true) :
    ascB (headingDates lv asLink
      (insertEntryToLogLine lv asLink blank content date entryLine)) = true := by
  have hlvne : lv ≠ [] := by
    rcases hlv with h | h | h <;> rw [h] <;> decide
  have hlvnl : '\n' ∉ lv := by
    rcases hlv with h | h | h <;> rw [h] <;> decide
  have hov := datePat_selfOvFree hlv asLink
  obtain ⟨pts, hpts⟩ := datePat_head hlv asLink
  obtain ⟨ptl, hptl1, hptl2⟩ := datePat_last lv asLink
  have hoffP := datePat_capOff lv asLink
  have hpne := datePatFor_ne_nil lv asLink
  have hnl1 : ∀ t ∈ (datePatFor lv asLink).drop 1, tokMatch t '\n' = false :=
    fun t ht => datePat_no_nl hlvnl asLink t (List.drop_subset _ _ ht)
  have hPpos : 0 < (datePatFor lv asLink).length := List.length_pos.mpr hpne
  have hTcEq : ∀ x : Str, datesOfOcc (datePatFor lv asLink) (capOff lv asLink) (trimEnd x)
      = datesOfOcc (datePatFor lv asLink) (capOff lv asLink) x :=
    fun x => datesOfOcc_trimEnd hpts tokHash_ws hptl1 hptl2 hoffP x
  have hentry_nil : datesOfOcc (datePatFor lv asLink) (capOff lv asLink) entryLine = [] := by
    unfold datesOfOcc
    rw [hpts, occList_eq_nil_of_head (fun c hc => by
      simp only [tokMatch, beq_eq_false_iff_ne, ne_eq]
      intro hh
      apply hline
      rw [hh]
      exact hc)]
    rfl
  rw [headingDates_eq_datesOfOcc hov] at hasc ⊢
  cases hH : firstIdxP (pfx (buildDateHeadingLog lv asLink date)) content with
  | some hi =>
    -- the heading already exists: the scanned dates are unchanged
    simp only [insertEntryToLogLine, hH]
    have hdHne : buildDateHeadingLog lv asLink date ≠ [] :=
      buildDateHeadingLog_ne_nil hlvne asLink date
    have hlitsne : lits (buildDateHeadingLog lv asLink date) ≠ [] := by
      intro hh
      apply hdHne
      have hl := congrArg List.length hh
      rw [lits_length] at hl
      exact List.eq_nil_of_length_eq_zero (by simpa using hl)
    have hocc0 : occursAt (lits (buildDateHeadingLog lv asLink date)) content hi :=
      (firstIdxP_some hH).1
    have hhiB : hi + (buildDateHeadingLog lv asLink date).length ≤ content.length := by
      have hb := occursAt_bound hlitsne hocc0
      rw [lits_length] at hb
      exact hb
    obtain ⟨hSE1, hSE2, hSE3, hSE4⟩ :=
      @sectionEndLog_spec lv content
        (hi + (buildDateHeadingLog lv asLink date).length) hhiB
    set SE := sectionEndLog lv content
      (hi + (buildDateHeadingLog lv asLink date).length) with hSEs
    have hncTail : ∀ (A : Str), ∀ i, i < A.length →
        occursAt (datePatFor lv asLink) (A ++ content.drop SE) i →
        i + (datePatFor lv asLink).length ≤ A.length := by
      rcases hSE3 with h | h
      · intro A i hi2 hocc2
        have hocc2' : patAt (datePatFor lv asLink)
            ((A ++ content.drop SE).drop i) = true := hocc2
        have hl := patAt_length_le hocc2'
        simp only [List.length_drop, List.length_append, h, List.length_nil] at hl
        omega
      · intro A
        exact noCross_of_head_char (pfx_head_nl h) hnl1
    have hsplit0 : datesOfOcc (datePatFor lv asLink) (capOff lv asLink) content
        = datesOfOcc (datePatFor lv asLink) (capOff lv asLink) (content.take SE)
          ++ datesOfOcc (datePatFor lv asLink) (capOff lv asLink) (content.drop SE) := by
      conv_lhs => rw [← List.take_append_drop SE content]
      exact datesOfOcc_append hoffP (hncTail _)
    have hsep_head : (sepFor blank ++ (entryLine ++ content.drop SE)).head?
        = some '\n' := by
      rw [head?_append_left _ (sep_ne blank)]
      exact sep_head blank
    have e1 : datesOfOcc (datePatFor lv asLink) (capOff lv asLink)
        (trimEnd (content.take SE) ++ (sepFor blank ++ (entryLine ++ content.drop SE)))
        = datesOfOcc (datePatFor lv asLink) (capOff lv asLink) (trimEnd (content.take SE))
          ++ datesOfOcc (datePatFor lv asLink) (capOff lv asLink)
            (sepFor blank ++ (entryLine ++ content.drop SE)) :=
      datesOfOcc_append hoffP (noCross_of_head_char hsep_head hnl1)
    have e2 : datesOfOcc (datePatFor lv asLink) (capOff lv asLink)
        (sepFor blank ++ (entryLine ++ content.drop SE))
        = datesOfOcc (datePatFor lv asLink) (capOff lv asLink) (sepFor blank)
          ++ datesOfOcc (datePatFor lv asLink) (capOff lv asLink)
            (entryLine ++ content.drop SE) := by
      apply datesOfOcc_append hoffP
      rw [hpts]
      apply noCross_of_no_head
      cases blank <;> decide
    have e3 : datesOfOcc (datePatFor lv asLink) (capOff lv asLink)
        (entryLine ++ content.drop SE)
        = datesOfOcc (datePatFor lv asLink) (capOff lv asLink) entryLine
          ++ datesOfOcc (datePatFor lv asLink) (capOff lv asLink) (content.drop SE) := by
      apply datesOfOcc_append hoffP
      rw [hpts]
      apply noCross_of_no_head
      intro c hc
      simp only [tokMatch, beq_eq_false_iff_ne, ne_eq]
      intro hh
      apply hline
      rw [hh]
      exact hc
    have e4 : datesOfOcc (datePatFor lv asLink) (capOff lv asLink) (sepFor blank) = [] :=
      datesOfOcc_ws_nil hpts tokHash_ws (by cases blank <;> decide) _
    rw [show trimEnd (content.take SE) ++ sepFor blank ++ entryLine ++ content.drop SE
        = trimEnd (content.take SE) ++ (sepFor blank ++ (entryLine ++ content.drop SE))
        from by simp [List.append_assoc]]
    rw [e1, e2, e3, e4, hentry_nil, hTcEq]
    simp only [List.nil_append]
    rw [← hsplit0]
    exact hasc
  | none =>
    cases hG : firstGreaterPos lv asLink date content with
    | none =>
      -- all existing dates are at most the new one: the section is appended
      simp only [insertEntryToLogLine, hH, hG]
      have hall := firstGreaterPos_none_elim hov hG
      have hnn_head : (str "\n\n" ++ (buildDateHeadingLog lv asLink date
          ++ (str "\n\n" ++ (entryLine ++ str "\n")))).head? = some '\n' := by
        rw [head?_append_left _ (by decide)]
        rfl
      have e1 : datesOfOcc (datePatFor lv asLink) (capOff lv asLink)
          (trimEnd content ++ (str "\n\n" ++ (buildDateHeadingLog lv asLink date
            ++ (str "\n\n" ++ (entryLine ++ str "\n")))))
          = datesOfOcc (datePatFor lv asLink) (capOff lv asLink) (trimEnd content)
            ++ datesOfOcc (datePatFor lv asLink) (capOff lv asLink)
              (str "\n\n" ++ (buildDateHeadingLog lv asLink date
                ++ (str "\n\n" ++ (entryLine ++ str "\n")))) :=
        datesOfOcc_append hoffP (noCross_of_head_char hnn_head hnl1)
      have e2 : datesOfOcc (datePatFor lv asLink) (capOff lv asLink)
          (str "\n\n" ++ (buildDateHeadingLog lv asLink date
            ++ (str "\n\n" ++ (entryLine ++ str "\n"))))
          = datesOfOcc (datePatFor lv asLink) (capOff lv asLink) (str "\n\n")
            ++ datesOfOcc (datePatFor lv asLink) (capOff lv asLink)
              (buildDateHeadingLog lv asLink date
                ++ (str "\n\n" ++ (entryLine ++ str "\n"))) := by
        apply datesOfOcc_append hoffP
        rw [hpts]
        apply noCross_of_no_head
        decide
      have e3 : datesOfOcc (datePatFor lv asLink) (capOff lv asLink) (str "\n\n") = [] :=
        datesOfOcc_ws_nil hpts tokHash_ws (by decide) _
      rw [show trimEnd content ++ str "\n\n" ++ (buildDateHeadingLog lv asLink date
            ++ str "\n\n" ++ entryLine ++ str "\n")
          = trimEnd content ++ (str "\n\n" ++ (buildDateHeadingLog lv asLink date
            ++ (str "\n\n" ++ (entryLine ++ str "\n")))) from by simp [List.append_assoc]]
      rw [e1, e2, e3, datesOfOcc_newSection hlv hdate asLink hline, hTcEq]
      simp only [List.nil_append]
      apply ascB_append_last hasc
      intro d hd
      obtain ⟨j, hj, rfl⟩ := List.mem_map.mp hd
      exact lexLe_of_not_lt (hall j ((mem_occList hpne).mp hj))
    | some ip =>
      -- the new section lands just before the first greater heading
      simp only [insertEntryToLogLine, hH, hG]
      obtain ⟨hipocc, hipgt, hipmin⟩ := firstGreaterPos_some_elim hov hG
      have hipB := occursAt_bound hpne hipocc
      have hC2occ : patAt (datePatFor lv asLink) (content.drop ip) = true := hipocc
      have htklen : (content.take ip).length = ip := by
        rw [List.length_take]
        omega
      have hsplitC : datesOfOcc (datePatFor lv asLink) (capOff lv asLink) content
          = datesOfOcc (datePatFor lv asLink) (capOff lv asLink) (content.take ip)
            ++ datesOfOcc (datePatFor lv asLink) (capOff lv asLink) (content.drop ip) := by
        conv_lhs => rw [← List.take_append_drop ip content]
        exact datesOfOcc_append hoffP (noCross_of_later_occ hov hC2occ)
      obtain ⟨D2, hD2⟩ := occList_head_zero hpne
        (show occursAt (datePatFor lv asLink) (content.drop ip) 0 from by
          unfold occursAt
          rw [List.drop_zero]
          exact hC2occ)
      have hdatesC2 : datesOfOcc (datePatFor lv asLink) (capOff lv asLink)
          (content.drop ip)
          = dateAtPos (capOff lv asLink) content ip
            :: D2.map (dateAtPos (capOff lv asLink) (content.drop ip)) := by
        unfold datesOfOcc
        rw [hD2]
        simp only [List.map_cons]
        congr 1
        rw [dateAtPos_drop, Nat.add_zero]
      have hrest_occ : patAt (datePatFor lv asLink)
          ((buildDateHeadingLog lv asLink date ++ (str "\n\n" ++ (entryLine ++ str "\n")))
            ++ (str "\n" ++ content.drop ip)) = true := by
        rw [List.append_assoc]
        exact patAt_datePat_built hdate asLink _
      have eA : datesOfOcc (datePatFor lv asLink) (capOff lv asLink)
          (content.take ip ++ ((buildDateHeadingLog lv asLink date
            ++ (str "\n\n" ++ (entryLine ++ str "\n"))) ++ (str "\n" ++ content.drop ip)))
          = datesOfOcc (datePatFor lv asLink) (capOff lv asLink) (content.take ip)
            ++ datesOfOcc (datePatFor lv asLink) (capOff lv asLink)
              ((buildDateHeadingLog lv asLink date
                ++ (str "\n\n" ++ (entryLine ++ str "\n")))
                ++ (str "\n" ++ content.drop ip)) :=
        datesOfOcc_append hoffP (noCross_of_later_occ hov hrest_occ)
      have eB : datesOfOcc (datePatFor lv asLink) (capOff lv asLink)
          ((buildDateHeadingLog lv asLink date ++ (str "\n\n" ++ (entryLine ++ str "\n")))
            ++ (str "\n" ++ content.drop ip))
          = datesOfOcc (datePatFor lv asLink) (capOff lv asLink)
              (buildDateHeadingLog lv asLink date ++ (str "\n\n" ++ (entryLine ++ str "\n")))
            ++ datesOfOcc (datePatFor lv asLink) (capOff lv asLink)
              (str "\n" ++ content.drop ip) :=
        datesOfOcc_append hoffP (noCross_of_head_char rfl hnl1)
      have eD : datesOfOcc (datePatFor lv asLink) (capOff lv asLink)
          (str "\n" ++ content.drop ip)
          = datesOfOcc (datePatFor lv asLink) (capOff lv asLink) (str "\n")
            ++ datesOfOcc (datePatFor lv asLink) (capOff lv asLink) (content.drop ip) := by
        apply datesOfOcc_append hoffP
        rw [hpts]
        apply noCross_of_no_head
        decide
      have eE : datesOfOcc (datePatFor lv asLink) (capOff lv asLink) (str "\n") = [] :=
        datesOfOcc_ws_nil hpts tokHash_ws (by decide) _
      rw [show content.take ip ++ (buildDateHeadingLog lv asLink date
            ++ str "\n\n" ++ entryLine ++ str "\n") ++ str "\n" ++ content.drop ip
          = content.take ip ++ ((buildDateHeadingLog lv asLink date
            ++ (str "\n\n" ++ (entryLine ++ str "\n"))) ++ (str "\n" ++ content.drop ip))
          from by simp [List.append_assoc]]
      rw [eA, eB, eD, eE, datesOfOcc_newSection hlv hdate asLink hline, hdatesC2]
      simp only [List.nil_append, List.singleton_append]
      rw [hsplitC, hdatesC2] at hasc
      apply ascB_insert_mid hasc
      · intro d hd
        obtain ⟨j, hj, rfl⟩ := List.mem_map.mp hd
        have hjb := occList_bound hj
        rw [htklen] at hjb
        have hjlt : j < ip := by omega
        have hocc_c : occursAt (datePatFor lv asLink) content j := by
          have h0 : patAt (datePatFor lv asLink) ((content.take ip).drop j) = true :=
            (mem_occList hpne).mp hj
          have h2 := patAt_drop_extend (b := content.drop ip) h0 (by rw [htklen]; omega)
          rw [List.take_append_drop] at h2
          exact h2
        have hmin := hipmin j hjlt hocc_c
        rw [dateAtPos_take content (by omega)]
        exact lexLe_of_not_lt hmin
      · exact lexLe_of_lt hipgt

/-- A batch of primary-log insert operations, applied in order. -/
def insertLogFold (lv : Str) (asLink blank : Bool) (content : Str)
    (ops : List (Str × Str)) : Str :=
  ops.foldl (fun c op => insertEntryToLogLine lv asLink blank c op.1 op.2) content

/-- C1 counterexample: a related-note insertion applied to a document whose
date headings are in ascending order (one heading, no `## Notes` section)
prepends a whole new notes block above the existing heading, so the
left-to-right scan of the result is decreasing — the claimed invariant does
not hold for sequences that include `insertEntryToRelatedNote`. -/
theorem c1_related_insert_breaks_scan :
    ascB (headingDates (str "###") true (str "### [[2025-01-01]]\nx\n")) = true ∧
    ascB (headingDates (str "###") true
      (insertEntryToRelatedNoteLine (str "## Notes") (str "###") true
        (str "### [[2025-01-01]]\nx\n") (str "2025-05-05") (str "- e"))) = false := by
  decide

/-- C1 (amended): for every sequence of primary-log insert operations with
well-formed dates and hash-free entry lines, starting from a document whose
left-to-right date-heading scan is non-decreasing, the scan of the resulting
document is still non-decreasing; the related-note path does not preserve
the document-wide scan. -/
theorem c1_amended_log_scan_ascending (lv : Str) (asLink blank : Bool)
    (content : Str) (ops : List (Str × Str))
    (hlv : lv = str "##" ∨ lv = str "###" ∨ lv = str "####")
    (hops : ∀ op ∈ ops, wellFormedDate op.1 = true ∧ '#' ∉ op.2)
    (hasc : ascB (headingDates lv asLink content) = true) :
    ascB (headingDates lv asLink (insertLogFold lv asLink blank content ops)) = true := by
  revert hasc
  revert content
  revert hops
  induction ops with
  | nil =>
    intro _ content hasc
    exact hasc
  | cons op rest ih =>
    intro hops content hasc
    have h0 := hops op (by simp)
    show ascB (headingDates lv asLink (insertLogFold lv asLink blank
      (insertEntryToLogLine lv asLink blank content op.1 op.2) rest)) = true
    exact ih (fun o ho => hops o (List.mem_cons_of_mem _ ho)) _
      (insertLog_step_asc lv asLink blank content op.1 op.2 hlv h0.1 h0.2 hasc)

theorem c1_amended_log_scan_ascending_witness :
    ascB (headingDates (str "##") true (insertLogFold (str "##") true true (str "")
      [(str "2025-01-02", str "- x"), (str "2025-01-01", str "- y")])) = true :=
  c1_amended_log_scan_ascending (str "##") true true (str "")
    [(str "2025-01-02", str "- x"), (str "2025-01-01", str "- y")]
    (Or.inl rfl) (by decide) (by decide)

/-! ### Locality of the scanners: a scan outcome determined inside a shared
prefix is the same for both strings -/

theorem getD_of_length_le {α : Type} {l : List α} {n : Nat} (h : l.length ≤ n)
    (d : α) : l.getD n d = d := by
  induction l generalizing n with
  | nil => simp
  | cons c cs ih =>
    cases n with
    | zero => simp at h
    | succ n' => simpa using ih (by simpa using h)

end WorkLog
